import Mathlib

/-! # kmlib::AtomicBitVector

A shallow embedding of `src/kmlib/bitvector.h` (instantiated at `WordType = uint64_t`,
the alias exported at the end of the header) and the properties proved about it.

* `size_t` and `uint64_t` values are natural numbers; arithmetic that can leave the
  64-bit range is reduced modulo `2 ^ 64` where the source computes it.
* `data_array_` is a list of words.  An unchecked `data_array_[k]` with `k` outside the
  array is undefined behaviour in the source and `none` here.
* Every atomic access is one function on the content of the accessed word.  The
  compare-and-swap loop of `try_lock` is a step machine (`try_lock_step`), one step per
  atomic access, which is run alone for the sequential reading of the method and under an
  arbitrary schedule for the concurrent one.
-/

namespace kmlib

/-! ## Constants and word arithmetic -/

/-- The constant `kBitsPerByte`. -/
def kBitsPerByte : Nat := 8

/-- The constant `kBitsPerWord = sizeof(WordType) * kBitsPerByte` with `sizeof(uint64_t) = 8`. -/
def kBitsPerWord : Nat := 8 * kBitsPerByte

/-- Number of values of `size_t` on the 64-bit target. -/
def sizeModulus : Nat := 2 ^ 64

/-- Number of values of `WordType = uint64_t`. -/
def wordModulus : Nat := 2 ^ 64

/-- The expression `(size + kBitsPerWord - 1) / kBitsPerWord` of the constructor, of `reset`
and of `FromPtr`, evaluated left to right in `size_t` arithmetic: the addition and the
subtraction both wrap modulo `2 ^ 64`. -/
def word_count (size : Nat) : Nat :=
  (((size + kBitsPerWord) % sizeModulus + (sizeModulus - 1)) % sizeModulus) / kBitsPerWord

/-- The mask `WordType(1) << (i % kBitsPerWord)`, given the offset `i % kBitsPerWord`. -/
def bit_mask (off : Nat) : Nat := (1 <<< off) % wordModulus

/-- The complement `~mask` of a 64-bit word. -/
def word_not (mask : Nat) : Nat := wordModulus - 1 - mask

/-- The test `(word >> off) & 1` converted to `bool`. -/
def bit_of (word off : Nat) : Bool := ((word >>> off) &&& 1) != 0

/-! ## Atomic accesses to one word

Each function maps the content of the word before the access to what the access
leaves in the word and hands back to the caller. -/

/-- The call `v.load(...)`: the value read. -/
def load (word : Nat) : Nat := word

/-- The call `v.fetch_or(mask, ...)`: the new content of the word. -/
def fetch_or (word mask : Nat) : Nat := word ||| mask

/-- The call `v.fetch_and(mask, ...)`: the new content of the word. -/
def fetch_and (word mask : Nat) : Nat := word &&& mask

/-- The call `v.compare_exchange_weak(expected, desired, ...)`: the returned flag, the new
content of the word and the new value of `expected`.  The exchange happens when the word
equals `expected`, unless the weak form fails spuriously; a failed call stores the word it
read into `expected`. -/
def compare_exchange_weak (spurious : Bool) (word expected desired : Nat) : Bool × Nat × Nat :=
  if word = expected ∧ spurious = false then (true, desired, expected) else (false, word, word)

/-! ## The vector -/

/-- The data members `size_` and `data_array_` of `AtomicBitVector<uint64_t>`. -/
structure AtomicBitVector where
  /-- The member `size_`: number of bits. -/
  size_ : Nat
  /-- The member `data_array_`: the content of the atomic words. -/
  data_array_ : List Nat
deriving DecidableEq, Repr

/-- The call `std::copy(src, src + n, dst.begin())`.  Reading past the end of the source
buffer is undefined. -/
def copy_words (src : List Nat) (n : Nat) (dst : List Nat) : Option (List Nat) :=
  if n ≤ src.length then some (src.take n ++ dst.drop n) else none

/-- The constructor `AtomicBitVector(size_t size = 0, WordType const *src = nullptr)`;
`src = none` is the null pointer, `src = some buf` a pointer to the words `buf`. -/
def AtomicBitVector.ctor (size : Nat) (src : Option (List Nat)) : Option AtomicBitVector :=
  let data := List.replicate (word_count size) 0
  match src with
  | none => some { size_ := size, data_array_ := data }
  | some buf => (copy_words buf data.length data).map fun d => { size_ := size, data_array_ := d }

/-- The method `size()`. -/
def AtomicBitVector.size (v : AtomicBitVector) : Nat := v.size_

/-- The method `set(i)`: one `fetch_or` on word `i / kBitsPerWord`. -/
def AtomicBitVector.set (v : AtomicBitVector) (i : Nat) : Option AtomicBitVector :=
  let mask := bit_mask (i % kBitsPerWord)
  match v.data_array_[i / kBitsPerWord]? with
  | none => none
  | some w =>
    some { v with data_array_ := v.data_array_.set (i / kBitsPerWord) (fetch_or w mask) }

/-- The method `unset(i)`: one `fetch_and` on word `i / kBitsPerWord`. -/
def AtomicBitVector.unset (v : AtomicBitVector) (i : Nat) : Option AtomicBitVector :=
  let mask := word_not (bit_mask (i % kBitsPerWord))
  match v.data_array_[i / kBitsPerWord]? with
  | none => none
  | some w =>
    some { v with data_array_ := v.data_array_.set (i / kBitsPerWord) (fetch_and w mask) }

/-- The method `get(i)`: one `load` of word `i / kBitsPerWord`. -/
def AtomicBitVector.get (v : AtomicBitVector) (i : Nat) : Option Bool :=
  match v.data_array_[i / kBitsPerWord]? with
  | none => none
  | some w => some (bit_of (load w) (i % kBitsPerWord))

/-- The method `unlock(i)`, which calls `unset(i)`. -/
def AtomicBitVector.unlock (v : AtomicBitVector) (i : Nat) : Option AtomicBitVector :=
  v.unset i

/-- The method `reset(size)`: the array is first replaced by an empty one, then by
`ArrayType((size + kBitsPerWord - 1) / kBitsPerWord, 0)`. -/
def AtomicBitVector.reset (v : AtomicBitVector) (size : Nat) : AtomicBitVector :=
  let cleared : AtomicBitVector := { v with data_array_ := List.replicate 0 0 }
  let resized : AtomicBitVector := { cleared with size_ := size }
  { resized with data_array_ := List.replicate (word_count size) 0 }

/-- The method `swap(rhs)`: two `std::swap` calls; the result is the new `*this` and the
new `rhs`. -/
def AtomicBitVector.swap (v rhs : AtomicBitVector) : AtomicBitVector × AtomicBitVector :=
  let (size1, size2) := (rhs.size_, v.size_)
  let (data1, data2) := (rhs.data_array_, v.data_array_)
  ({ size_ := size1, data_array_ := data1 }, { size_ := size2, data_array_ := data2 })

/-! ## The compare-and-swap loop of `try_lock` -/

/-- Where one call of `try_lock` stands between two of its atomic accesses. -/
inductive LockPc where
  /-- Before the initial `load` (line 93). -/
  | entry
  /-- At the `while` test (line 94) with the local `old_value`. -/
  | loop (old_value : Nat)
  /-- After `return result`. -/
  | ret (result : Bool)
deriving DecidableEq, Repr

/-- What a step of `try_lock` did to the shared word. -/
inductive Access where
  /-- The initial `load`. -/
  | load
  /-- One execution of the loop body: a `compare_exchange_weak` and its outcome. -/
  | cas (success : Bool)
  /-- The `while` test failed and the call returned `false`: no access. -/
  | exit
  /-- The call had already returned: no access. -/
  | idle
deriving DecidableEq, Repr

/-- Outcome of one step: the new control point, the new content of the word, the access. -/
structure LockStep where
  /-- Control point after the step. -/
  pc : LockPc
  /-- Content of the shared word after the step. -/
  word : Nat
  /-- The access the step performed. -/
  access : Access
deriving DecidableEq, Repr

/-- One step of `try_lock(i)` with `off = i % kBitsPerWord` on the word `*p`, up to and
including its next atomic access. -/
def try_lock_step (off : Nat) (spurious : Bool) (pc : LockPc) (word : Nat) : LockStep :=
  match pc with
  | .entry => { pc := .loop (load word), word := word, access := .load }
  | .loop old_value =>
    if bit_of old_value off then
      { pc := .ret false, word := word, access := .exit }
    else
      let new_value := old_value ||| bit_mask off
      match compare_exchange_weak spurious word old_value new_value with
      | (true, word1, _) => { pc := .ret true, word := word1, access := .cas true }
      | (false, word1, old_value1) =>
        { pc := .loop old_value1, word := word1, access := .cas false }
  | .ret b => { pc := .ret b, word := word, access := .idle }

/-- The steps of one call run back to back, nothing else touching the word and no spurious
failure of the weak exchange: the returned flag, the final word and the accesses made, or
`none` when `fuel` steps were not enough. -/
def try_lock_run (off : Nat) (fuel : Nat) (pc : LockPc) (word : Nat) (trace : List Access) :
    Option (Bool × Nat × List Access) :=
  match pc with
  | .ret b => some (b, word, trace)
  | _ =>
    match fuel with
    | 0 => none
    | fuel1 + 1 =>
      let s := try_lock_step off false pc word
      try_lock_run off fuel1 s.pc s.word (trace ++ [s.access])

/-- What a call of `try_lock` leaves behind. -/
structure LockResult where
  /-- The returned flag. -/
  result : Bool
  /-- The vector after the call. -/
  vec : AtomicBitVector
  /-- The atomic accesses the call made, in order. -/
  accesses : List Access
deriving DecidableEq, Repr

/-- The method `try_lock(i)` called with nothing else running. -/
def AtomicBitVector.try_lock (fuel : Nat) (v : AtomicBitVector) (i : Nat) : Option LockResult :=
  match v.data_array_[i / kBitsPerWord]? with
  | none => none
  | some w =>
    match try_lock_run (i % kBitsPerWord) fuel .entry w [] with
    | none => none
    | some (b, w1, tr) =>
      some { result := b
             vec := { v with data_array_ := v.data_array_.set (i / kBitsPerWord) w1 }
             accesses := tr }

/-- Invariant I1 of the data model: the array has `ceil(size / kBitsPerWord)` words. -/
def I1 (v : AtomicBitVector) : Prop :=
  v.data_array_.length = (v.size_ + (kBitsPerWord - 1)) / kBitsPerWord

instance (v : AtomicBitVector) : Decidable (I1 v) :=
  inferInstanceAs (Decidable (_ = _))


/-- The method `try_lock(i)` called `n` times in a row, nothing else running: the flags
returned, in call order, and the vector after the last call. -/
def try_lock_repeat (fuel : Nat) (i : Nat) : Nat → AtomicBitVector →
    Option (List Bool × AtomicBitVector)
  | 0, v => some ([], v)
  | n + 1, v =>
    match v.try_lock fuel i with
    | none => none
    | some r =>
      match try_lock_repeat fuel i n r.vec with
      | none => none
      | some (bs, v1) => some (r.result :: bs, v1)

/-! ## Several threads in `try_lock` on the same word -/

/-- The shared word and the control point of each thread that called `try_lock(i)`. -/
structure LockSystem where
  /-- Content of the word `data_array_[i / kBitsPerWord]`. -/
  word : Nat
  /-- Control point of thread `0`, `1`, ... -/
  threads : List LockPc
deriving DecidableEq, Repr

/-- Thread `t` makes its next step (a thread that does not exist makes none); `spurious`
tells whether a weak exchange made in this step fails spuriously. -/
def LockSystem.step (off : Nat) (s : LockSystem) (t : Nat) (spurious : Bool) : LockSystem :=
  match s.threads[t]? with
  | none => s
  | some pc =>
    let r := try_lock_step off spurious pc s.word
    { word := r.word, threads := s.threads.set t r.pc }

/-- An interleaving: the threads step in the order the schedule lists them. -/
def LockSystem.run (off : Nat) (s : LockSystem) : List (Nat × Bool) → LockSystem
  | [] => s
  | (t, spurious) :: rest => LockSystem.run off (s.step off t spurious) rest

/-- The `n` threads before any of them has made a step. -/
def LockSystem.init (word : Nat) (n : Nat) : LockSystem :=
  { word := word, threads := List.replicate n LockPc.entry }

/-- Whether the call has returned. -/
def LockPc.returned : LockPc → Bool
  | .ret _ => true
  | _ => false

/-- Whether every call has returned. -/
def LockSystem.finished (s : LockSystem) : Bool := s.threads.all LockPc.returned

/-- Number of steps the schedule gives thread `t` in which the weak exchange, if one is
made, does not fail spuriously. -/
def sound_steps (t : Nat) (sched : List (Nat × Bool)) : Nat :=
  sched.countP fun e => e.1 == t && !e.2

/-- An upper bound on the number of own steps without spurious failure that a call still
needs before it has returned, when the word is only changed by calls of `try_lock(i)` that
started with bit `i` clear. -/
def LockPc.rank (off : Nat) : LockPc → Nat
  | .entry => 3
  | .loop old_value => if bit_of old_value off then 1 else 2
  | .ret _ => 0

/-- The rank of thread `t`; a thread that does not exist has rank 0. -/
def LockSystem.rankAt (off : Nat) (s : LockSystem) (t : Nat) : Nat :=
  match s.threads[t]? with
  | some pc => pc.rank off
  | none => 0

/-- What holds of every state the threads can reach from a word `w` whose bit is clear:
either the word is still `w` and every thread is before its load or holds the snapshot `w`,
or the word is `w` with the bit set, exactly one thread has returned `true`, and every
other thread is before its load, holds one of the two snapshots, or has returned `false`. -/
def LockSystem.Inv (off w : Nat) (s : LockSystem) : Prop :=
  (s.word = w ∧ ∀ pc ∈ s.threads, pc = LockPc.entry ∨ pc = LockPc.loop w) ∨
  (s.word = fetch_or w (bit_mask off) ∧ s.threads.count (LockPc.ret true) = 1 ∧
    ∀ pc ∈ s.threads, pc = LockPc.entry ∨ pc = LockPc.loop w ∨
      pc = LockPc.loop (fetch_or w (bit_mask off)) ∨ pc = LockPc.ret false ∨
      pc = LockPc.ret true)

/-! ## Moves, `FromPtr`, `lock`, and runs against an environment -/

/-- The move constructor `AtomicBitVector(AtomicBitVector &&rhs)`: the new object and `rhs`
after the call.  `size_` is copied and `rhs.size_` is not written; `data_array_` is
move-constructed, which leaves the array of `rhs` empty. -/
def AtomicBitVector.move_ctor (rhs : AtomicBitVector) : AtomicBitVector × AtomicBitVector :=
  ({ size_ := rhs.size_, data_array_ := rhs.data_array_ }, { rhs with data_array_ := [] })

/-- The move assignment `operator=(AtomicBitVector &&rhs)`: the new `*this` and `rhs` after
the call.  `rhs.size_` is not written; a moved-from `std::vector` is in a valid but
unspecified state, given here by `residue`. -/
def AtomicBitVector.move_assign (v rhs : AtomicBitVector) (residue : List Nat) :
    AtomicBitVector × AtomicBitVector :=
  let assigned : AtomicBitVector := { v with size_ := rhs.size_ }
  ({ assigned with data_array_ := rhs.data_array_ }, { rhs with data_array_ := residue })

/-- The call `data_array_.resize(n)`: the first `n` words are kept, missing ones are 0. -/
def resize_words (data : List Nat) (n : Nat) : List Nat :=
  data.take n ++ List.replicate (n - data.length) 0

/-- The three statements of the body of `FromPtr(size, src)` (lines 47 to 49): the state
they leave. -/
def AtomicBitVector.FromPtr_body (v : AtomicBitVector) (size : Nat) (src : List Nat) :
    Option AtomicBitVector :=
  let sized : AtomicBitVector := { v with size_ := size }
  let data := resize_words sized.data_array_ (word_count size)
  (copy_words src data.length data).map fun d => { sized with data_array_ := d }

/-- The call `FromPtr(size, src)`.  After its body, control reaches the end of a function
whose return type is `AtomicBitVector&` without a `return` statement, which is undefined:
no call gives a result. -/
def AtomicBitVector.FromPtr (v : AtomicBitVector) (size : Nat) (src : List Nat) :
    Option AtomicBitVector :=
  (v.FromPtr_body size src).bind fun _ => none

/-- The method `lock(i)` called with nothing else running: the vector after the call and
the number of `try_lock` calls made, or `none` when `fuel` calls were not enough. -/
def AtomicBitVector.lock (try_fuel : Nat) (i : Nat) : Nat → AtomicBitVector →
    Option (AtomicBitVector × Nat)
  | 0, _ => none
  | fuel + 1, v =>
    match v.try_lock try_fuel i with
    | none => none
    | some r =>
      if r.result then some (r.vec, 1)
      else (AtomicBitVector.lock try_fuel i fuel r.vec).map fun p => (p.1, p.2 + 1)

/-- The method `set` applied to each index of the list, first to last. -/
def set_each : List Nat → AtomicBitVector → Option AtomicBitVector
  | [], v => some v
  | i :: rest, v =>
    match v.set i with
    | none => none
    | some v1 => set_each rest v1

/-- Every word of the array is a value of `uint64_t`. -/
def words_in_range (v : AtomicBitVector) : Prop :=
  ∀ w ∈ v.data_array_, w < wordModulus

instance (v : AtomicBitVector) : Decidable (words_in_range v) :=
  inferInstanceAs (Decidable (∀ w ∈ v.data_array_, w < wordModulus))

/-- One step of a call of `try_lock` as seen from the word: the control point before the
step, the content the step found in the word, and what the step made of both. -/
structure LockEvent where
  /-- Control point before the step. -/
  pc : LockPc
  /-- Content of the word when the step accessed it. -/
  word : Nat
  /-- Outcome of the step. -/
  step : LockStep
deriving DecidableEq, Repr

/-- A call of `try_lock` against an environment that may change the word between any two
accesses of the call: the list gives, for each successive step (the step that leaves the
loop with `false` included, which does not access the word), the content of the word at
that moment and whether a weak exchange made in the step fails spuriously.  The result is
the returned flag and the steps made, or `none` when the list ends before the call
returns. -/
def try_lock_env (off : Nat) : LockPc → List (Nat × Bool) → Option (Bool × List LockEvent)
  | .ret b, _ => some (b, [])
  | .entry, [] => none
  | .loop _, [] => none
  | .entry, (word, spurious) :: rest =>
    let s := try_lock_step off spurious .entry word
    match try_lock_env off s.pc rest with
    | none => none
    | some (b, evs) => some (b, { pc := .entry, word := word, step := s } :: evs)
  | .loop old_value, (word, spurious) :: rest =>
    let s := try_lock_step off spurious (.loop old_value) word
    match try_lock_env off s.pc rest with
    | none => none
    | some (b, evs) => some (b, { pc := .loop old_value, word := word, step := s } :: evs)

/-- A contended call of `try_lock(70)`: the call loads `0x80`, another thread then sets
bit 64 of the word, the first exchange finds `0x81` and fails, the second finds `0x81`
again and stores `0xC1`. -/
def contended_steps : List LockEvent :=
  [{ pc := .entry, word := 0x80,
     step := { pc := .loop 0x80, word := 0x80, access := .load } },
   { pc := .loop 0x80, word := 0x81,
     step := { pc := .loop 0x81, word := 0x81, access := .cas false } },
   { pc := .loop 0x81, word := 0x81,
     step := { pc := .ret true, word := 0xC1, access := .cas true } }]

end kmlib

/-! ## Bits of a word -/

namespace kmlib

theorem bit_of_eq_testBit (w k : Nat) : bit_of w k = w.testBit k := by
  unfold bit_of Nat.testBit
  rw [Nat.and_comm]

theorem mod_kBitsPerWord_lt (i : Nat) : i % kBitsPerWord < 64 :=
  Nat.mod_lt i (by decide)

theorem bit_mask_eq {off : Nat} (h : off < 64) : bit_mask off = 2 ^ off := by
  unfold bit_mask wordModulus
  rw [Nat.one_shiftLeft]
  exact Nat.mod_eq_of_lt (Nat.pow_lt_pow_right (by decide) h)

theorem bit_of_fetch_or_mask (w : Nat) {k : Nat} (hk : k < 64) (j : Nat) :
    bit_of (fetch_or w (bit_mask k)) j = (bit_of w j || decide (k = j)) := by
  simp only [bit_of_eq_testBit, fetch_or, bit_mask_eq hk, Nat.testBit_or, Nat.testBit_two_pow]

theorem bit_of_fetch_and_mask (w : Nat) {k : Nat} (hk : k < 64) {j : Nat} (hj : j < 64) :
    bit_of (fetch_and w (word_not (bit_mask k))) j = (bit_of w j && !decide (k = j)) := by
  have h2 : 2 ^ k < 2 ^ 64 := Nat.pow_lt_pow_right (by decide) hk
  have hnot : word_not (bit_mask k) = 2 ^ 64 - (2 ^ k + 1) := by
    unfold word_not wordModulus
    rw [bit_mask_eq hk]
    omega
  simp only [bit_of_eq_testBit, fetch_and, hnot, Nat.testBit_and,
    Nat.testBit_two_pow_sub_succ h2, Nat.testBit_two_pow, hj, decide_True, Bool.true_and]

/-! ## Reading a vector after one of its words was replaced -/

theorem get_eq (v : AtomicBitVector) (i : Nat) :
    v.get i = (v.data_array_[i / kBitsPerWord]?).map fun w => bit_of w (i % kBitsPerWord) := by
  unfold AtomicBitVector.get load
  cases v.data_array_[i / kBitsPerWord]? <;> rfl

theorem get_set_word (s : Nat) (l : List Nat) (a x j : Nat) :
    AtomicBitVector.get { size_ := s, data_array_ := l.set a x } j =
      if a = j / kBitsPerWord then
        (if a < l.length then some (bit_of x (j % kBitsPerWord)) else none)
      else AtomicBitVector.get { size_ := s, data_array_ := l } j := by
  rw [get_eq, get_eq]
  simp only [List.getElem?_set]
  split
  · split <;> rfl
  · rfl

theorem index_lt_of_I1 {v : AtomicBitVector} (h : I1 v) {i : Nat} (hi : i < v.size) :
    i / kBitsPerWord < v.data_array_.length := by
  unfold I1 at h
  unfold AtomicBitVector.size at hi
  rw [h]
  simp only [kBitsPerWord, kBitsPerByte] at *
  omega

theorem word_of_I1 {v : AtomicBitVector} (h : I1 v) {i : Nat} (hi : i < v.size) :
    ∃ w, v.data_array_[i / kBitsPerWord]? = some w :=
  ⟨_, List.getElem?_eq_getElem (index_lt_of_I1 h hi)⟩

theorem split_index {i j : Nat} (hij : i ≠ j) (h : i / kBitsPerWord = j / kBitsPerWord) :
    i % kBitsPerWord ≠ j % kBitsPerWord := by
  intro hm
  apply hij
  rw [← Nat.div_add_mod i kBitsPerWord, ← Nat.div_add_mod j kBitsPerWord, h, hm]

end kmlib

/-! ## The methods on a vector whose word `i / kBitsPerWord` exists -/

namespace kmlib

theorem set_of_word {v : AtomicBitVector} {i w : Nat}
    (h : v.data_array_[i / kBitsPerWord]? = some w) :
    v.set i = some { size_ := v.size_,
                     data_array_ := v.data_array_.set (i / kBitsPerWord)
                       (fetch_or w (bit_mask (i % kBitsPerWord))) } := by
  unfold AtomicBitVector.set
  simp only [h]

theorem unset_of_word {v : AtomicBitVector} {i w : Nat}
    (h : v.data_array_[i / kBitsPerWord]? = some w) :
    v.unset i = some { size_ := v.size_,
                       data_array_ := v.data_array_.set (i / kBitsPerWord)
                         (fetch_and w (word_not (bit_mask (i % kBitsPerWord)))) } := by
  unfold AtomicBitVector.unset
  simp only [h]

theorem get_of_word {v : AtomicBitVector} {i w : Nat}
    (h : v.data_array_[i / kBitsPerWord]? = some w) :
    v.get i = some (bit_of w (i % kBitsPerWord)) := by
  rw [get_eq, h]
  rfl

/-- Run alone, the loop needs two steps: the load, then either the failed `while` test or
one successful exchange. -/
theorem try_lock_run_entry (off w fuel : Nat) :
    try_lock_run off (fuel + 2) LockPc.entry w [] =
      some (if bit_of w off then (false, w, [Access.load, Access.exit])
            else (true, w ||| bit_mask off, [Access.load, Access.cas true])) := by
  unfold try_lock_run
  simp only [try_lock_step, load]
  unfold try_lock_run
  cases hb : bit_of w off
  · simp [try_lock_step, compare_exchange_weak, hb, try_lock_run]
  · simp [try_lock_step, hb, try_lock_run]

theorem try_lock_of_word {v : AtomicBitVector} {i w : Nat} (fuel : Nat)
    (h : v.data_array_[i / kBitsPerWord]? = some w) :
    v.try_lock (fuel + 2) i =
      some (if bit_of w (i % kBitsPerWord) then
              { result := false, vec := v, accesses := [Access.load, Access.exit] }
            else
              { result := true
                vec := { size_ := v.size_
                         data_array_ := v.data_array_.set (i / kBitsPerWord)
                           (fetch_or w (bit_mask (i % kBitsPerWord))) }
                accesses := [Access.load, Access.cas true] }) := by
  unfold AtomicBitVector.try_lock
  simp only [h, try_lock_run_entry]
  cases hb : bit_of w (i % kBitsPerWord)
  · simp [fetch_or]
  · have hset : v.data_array_.set (i / kBitsPerWord) w = v.data_array_ := by
      apply List.ext_getElem?
      intro n
      rw [List.getElem?_set]
      split
      · next hn =>
        subst hn
        split
        · exact h.symm
        · next hlt => exact (List.getElem?_eq_none (Nat.le_of_not_lt hlt)).symm
      · rfl
    simp [hset]

end kmlib

/-! ## Bit-level contract of `set`, `unset`, `get`, `try_lock`, `unlock` -/

namespace kmlib

theorem get_after_set {v : AtomicBitVector} {i w : Nat}
    (h : v.data_array_[i / kBitsPerWord]? = some w) (j : Nat) :
    AtomicBitVector.get { size_ := v.size_,
                          data_array_ := v.data_array_.set (i / kBitsPerWord)
                            (fetch_or w (bit_mask (i % kBitsPerWord))) } j =
      if i = j then some true else v.get j := by
  have hlen : i / kBitsPerWord < v.data_array_.length := by
    by_contra hc
    rw [List.getElem?_eq_none (Nat.le_of_not_lt hc)] at h
    cases h
  rw [get_set_word]
  by_cases hd : i / kBitsPerWord = j / kBitsPerWord
  · rw [if_pos hd, if_pos hlen, bit_of_fetch_or_mask w (mod_kBitsPerWord_lt i)]
    by_cases hij : i = j
    · subst hij; simp
    · have hm := split_index hij hd
      rw [if_neg hij, get_of_word (hd ▸ h)]
      simp [hm]
  · have hij : i ≠ j := fun e => hd (by rw [e])
    rw [if_neg hd, if_neg hij]

theorem get_after_unset {v : AtomicBitVector} {i w : Nat}
    (h : v.data_array_[i / kBitsPerWord]? = some w) (j : Nat) :
    AtomicBitVector.get { size_ := v.size_,
                          data_array_ := v.data_array_.set (i / kBitsPerWord)
                            (fetch_and w (word_not (bit_mask (i % kBitsPerWord)))) } j =
      if i = j then some false else v.get j := by
  have hlen : i / kBitsPerWord < v.data_array_.length := by
    by_contra hc
    rw [List.getElem?_eq_none (Nat.le_of_not_lt hc)] at h
    cases h
  rw [get_set_word]
  by_cases hd : i / kBitsPerWord = j / kBitsPerWord
  · rw [if_pos hd, if_pos hlen, 
      bit_of_fetch_and_mask w (mod_kBitsPerWord_lt i) (mod_kBitsPerWord_lt j)]
    by_cases hij : i = j
    · subst hij; simp
    · have hm := split_index hij hd
      rw [if_neg hij, get_of_word (hd ▸ h)]
      simp [hm]
  · have hij : i ≠ j := fun e => hd (by rw [e])
    rw [if_neg hd, if_neg hij]

/-- C1: on a vector that satisfies I1 and for an index `i < size()`, `set(i)` is defined
and `get(i)` is `true` after it; the following `unset(i)` is defined and `get(i)` is `false`
after it.  Nothing is assumed about the words of the vector. -/
theorem set_get_unset_get (v : AtomicBitVector) (i : Nat) (hI1 : I1 v) (hi : i < v.size) :
    ∃ v1 v2, v.set i = some v1 ∧ v1.get i = some true ∧
      v1.unset i = some v2 ∧ v2.get i = some false := by
  obtain ⟨w, hw⟩ := word_of_I1 hI1 hi
  have hlen := index_lt_of_I1 hI1 hi
  refine ⟨_, _, set_of_word hw, ?_, 
    @unset_of_word _ i (fetch_or w (bit_mask (i % kBitsPerWord))) ?_, ?_⟩
  · rw [get_after_set hw, if_pos rfl]
  · simp only [List.getElem?_set, if_pos hlen, if_true]
  · have h1 : (AtomicBitVector.mk v.size_ (v.data_array_.set (i / kBitsPerWord)
        (fetch_or w (bit_mask (i % kBitsPerWord))))).data_array_[i / kBitsPerWord]? =
        some (fetch_or w (bit_mask (i % kBitsPerWord))) := by
      simp only [List.getElem?_set, if_pos hlen, if_true]
    rw [get_after_unset h1, if_pos rfl]

/-- Witness of C1: size 128, words `0xFFFF` and `0x40`, index 70 (set before the call). -/
theorem set_get_unset_get_witness :
    I1 (AtomicBitVector.mk 128 [0xFFFF, 0x40]) ∧
    70 < (AtomicBitVector.mk 128 [0xFFFF, 0x40]).size ∧
    ∃ v1 v2, (AtomicBitVector.mk 128 [0xFFFF, 0x40]).set 70 = some v1 ∧ v1.get 70 = some true ∧
      v1.unset 70 = some v2 ∧ v2.get 70 = some false :=
  ⟨by decide, by decide,
    set_get_unset_get (AtomicBitVector.mk 128 [0xFFFF, 0x40]) 70 (by decide) (by decide)⟩

/-- C2: on a vector that satisfies I1 and for indices `i ≠ j` below `size()`, each of
`set(i)`, `unset(i)`, `try_lock(i)` (given fuel for its two steps) and `unlock(i)` is defined
and leaves `get(j)`, which is defined, and `size()` as they were, also when `i` and `j`
share a word. -/
theorem other_bits_unchanged (v : AtomicBitVector) (i j : Nat) (hI1 : I1 v)
    (hi : i < v.size) (hj : j < v.size) (hij : i ≠ j) :
    (∃ b, v.get j = some b) ∧
    (∃ v1, v.set i = some v1 ∧ v1.get j = v.get j ∧ v1.size = v.size) ∧
    (∃ v1, v.unset i = some v1 ∧ v1.get j = v.get j ∧ v1.size = v.size) ∧
    (∀ fuel, 2 ≤ fuel →
      ∃ r, v.try_lock fuel i = some r ∧ r.vec.get j = v.get j ∧ r.vec.size = v.size) ∧
    (∃ v1, v.unlock i = some v1 ∧ v1.get j = v.get j ∧ v1.size = v.size) := by
  obtain ⟨w, hw⟩ := word_of_I1 hI1 hi
  have hunset : ∃ v1, v.unset i = some v1 ∧ v1.get j = v.get j ∧ v1.size = v.size :=
    ⟨_, unset_of_word hw, by rw [get_after_unset hw, if_neg hij], rfl⟩
  obtain ⟨wj, hwj⟩ := word_of_I1 hI1 hj
  refine ⟨⟨_, get_of_word hwj⟩,
    ⟨_, set_of_word hw, by rw [get_after_set hw, if_neg hij], rfl⟩, hunset, ?_, hunset⟩
  intro fuel hfuel
  obtain ⟨k, rfl⟩ : ∃ k, fuel = k + 2 := ⟨fuel - 2, by omega⟩
  refine ⟨_, try_lock_of_word k hw, ?_, ?_⟩
  · split
    · rfl
    · rw [get_after_set hw, if_neg hij]
  · split <;> rfl

/-- Witness of C2: indices 70 and 71 lie in the same word of a vector of size 128. -/
theorem other_bits_unchanged_witness :
    I1 (AtomicBitVector.mk 128 [0xFFFF, 0x80]) ∧
    70 < (AtomicBitVector.mk 128 [0xFFFF, 0x80]).size ∧
    71 < (AtomicBitVector.mk 128 [0xFFFF, 0x80]).size ∧ 70 ≠ 71 ∧
    (∃ b, (AtomicBitVector.mk 128 [0xFFFF, 0x80]).get 71 = some b) ∧
    (∃ v1, (AtomicBitVector.mk 128 [0xFFFF, 0x80]).set 70 = some v1 ∧
      v1.get 71 = (AtomicBitVector.mk 128 [0xFFFF, 0x80]).get 71 ∧
      v1.size = (AtomicBitVector.mk 128 [0xFFFF, 0x80]).size) ∧
    (∃ v1, (AtomicBitVector.mk 128 [0xFFFF, 0x80]).unset 70 = some v1 ∧
      v1.get 71 = (AtomicBitVector.mk 128 [0xFFFF, 0x80]).get 71 ∧
      v1.size = (AtomicBitVector.mk 128 [0xFFFF, 0x80]).size) ∧
    (∀ fuel, 2 ≤ fuel →
      ∃ r, (AtomicBitVector.mk 128 [0xFFFF, 0x80]).try_lock fuel 70 = some r ∧
        r.vec.get 71 = (AtomicBitVector.mk 128 [0xFFFF, 0x80]).get 71 ∧
        r.vec.size = (AtomicBitVector.mk 128 [0xFFFF, 0x80]).size) ∧
    (∃ v1, (AtomicBitVector.mk 128 [0xFFFF, 0x80]).unlock 70 = some v1 ∧
      v1.get 71 = (AtomicBitVector.mk 128 [0xFFFF, 0x80]).get 71 ∧
      v1.size = (AtomicBitVector.mk 128 [0xFFFF, 0x80]).size) :=
  ⟨by decide, by decide, by decide, by decide,
    other_bits_unchanged (AtomicBitVector.mk 128 [0xFFFF, 0x80]) 70 71
      (by decide) (by decide) (by decide) (by decide)⟩

end kmlib

/-! ## Construction and `reset` -/

namespace kmlib

/-- The word count is `ceil(size / 64)` as long as `size + 64` does not exceed `2 ^ 64`. -/
theorem word_count_eq_ceil {size : Nat} (h : size + 64 ≤ 2 ^ 64) :
    word_count size = (size + (kBitsPerWord - 1)) / kBitsPerWord := by
  simp only [word_count, sizeModulus, kBitsPerWord, kBitsPerByte]
  norm_num at h ⊢
  omega

/-- The 63 largest sizes make the sum wrap: no word is allocated. -/
theorem word_count_wrapped {size : Nat} (h1 : 2 ^ 64 < size + 64) (h2 : size < 2 ^ 64) :
    word_count size = 0 := by
  simp only [word_count, sizeModulus, kBitsPerWord, kBitsPerByte]
  norm_num at h1 h2 ⊢
  omega

theorem get_replicate_zero (s n i : Nat) (h : i / kBitsPerWord < n) :
    AtomicBitVector.get { size_ := s, data_array_ := List.replicate n 0 } i = some false := by
  rw [get_eq]
  simp only [List.getElem?_replicate, if_pos h, Option.map_some']
  rw [bit_of_eq_testBit, Nat.zero_testBit]

/-- A size up to `2 ^ 64 - 64`: the constructor without source words gives a vector of that
size that satisfies I1 and whose bits below the size are all clear. -/
theorem ctor_fresh {size : Nat} (h : size + 64 ≤ 2 ^ 64) :
    ∃ v, AtomicBitVector.ctor size none = some v ∧ v.size = size ∧ I1 v ∧
      ∀ i, i < size → v.get i = some false := by
  refine ⟨_, rfl, rfl, ?_, ?_⟩
  · simp only [I1, List.length_replicate, word_count_eq_ceil h]
  · intro i hi
    apply get_replicate_zero
    rw [word_count_eq_ceil h]
    simp only [kBitsPerWord, kBitsPerByte]
    omega

/-- A size up to `2 ^ 64 - 64`: `reset` gives a vector of that size that satisfies I1 and
whose bits below the size are all clear, whatever the vector held before. -/
theorem reset_fresh (v : AtomicBitVector) {size : Nat} (h : size + 64 ≤ 2 ^ 64) :
    (v.reset size).size = size ∧ I1 (v.reset size) ∧
      ∀ i, i < size → (v.reset size).get i = some false := by
  refine ⟨rfl, ?_, ?_⟩
  · simp only [I1, AtomicBitVector.reset, List.length_replicate, word_count_eq_ceil h]
  · intro i hi
    apply get_replicate_zero
    rw [word_count_eq_ceil h]
    simp only [kBitsPerWord, kBitsPerByte]
    omega

/-- A size up to `2 ^ 64 - 64` and a buffer of at least `ceil(size / 64)` words: the
constructor gives a vector of that size that satisfies I1 and whose bit `i` is bit
`i % 64` of word `i / 64` of the buffer. -/
theorem ctor_from_words {size : Nat} (h : size + 64 ≤ 2 ^ 64) (buf : List Nat)
    (hbuf : (size + (kBitsPerWord - 1)) / kBitsPerWord ≤ buf.length) :
    ∃ v, AtomicBitVector.ctor size (some buf) = some v ∧ v.size = size ∧ I1 v ∧
      ∀ i, i < size →
        v.get i = (buf[i / kBitsPerWord]?).map fun w => w.testBit (i % kBitsPerWord) := by
  have hc := word_count_eq_ceil h
  have hle : word_count size ≤ buf.length := hc ▸ hbuf
  refine ⟨{ size_ := size, data_array_ := buf.take (word_count size) }, ?_, rfl, ?_, ?_⟩
  · simp [AtomicBitVector.ctor, copy_words, hle]
  · simp only [I1, List.length_take]
    rw [Nat.min_eq_left hle, hc]
  · intro i hi
    have hlt : i / kBitsPerWord < word_count size := by
      rw [hc]
      simp only [kBitsPerWord, kBitsPerByte]
      omega
    rw [get_eq]
    simp only [List.getElem?_take, if_pos hlt]
    cases buf[i / kBitsPerWord]? with
    | none => rfl
    | some w => simp [bit_of_eq_testBit]

end kmlib

/-! ## The lock protocol, one caller at a time -/

namespace kmlib

theorem word_after_update {l : List Nat} {a : Nat} (x : Nat) (h : a < l.length) :
    (l.set a x)[a]? = some x := by
  simp only [List.getElem?_set, if_pos h, if_true]

theorem lt_length_of_word {l : List Nat} {a w : Nat} (h : l[a]? = some w) : a < l.length := by
  by_contra hc
  rw [List.getElem?_eq_none (Nat.le_of_not_lt hc)] at h
  cases h

/-- A locked bit: any number of `try_lock` calls in a row all return `false` and leave the
vector as it is. -/
theorem try_lock_repeat_locked {v : AtomicBitVector} {i w : Nat} (fuel : Nat)
    (h : v.data_array_[i / kBitsPerWord]? = some w) (hb : bit_of w (i % kBitsPerWord) = true)
    (n : Nat) :
    try_lock_repeat (fuel + 2) i n v = some (List.replicate n false, v) := by
  induction n with
  | zero => rfl
  | succ n ih =>
    unfold try_lock_repeat
    rw [try_lock_of_word fuel h, if_pos hb]
    simp only [ih]
    rfl

/-- C3 (failing input): for `size = 2 ^ 64 - 1` the constructor without source words
reports that size and allocates no word, so that `get(0)`, an index below the size, reads
outside the array. -/
theorem ctor_largest_size_get_undefined :
    (AtomicBitVector.ctor (2 ^ 64 - 1) none).map (fun v => (v.size, v.data_array_, v.get 0)) =
      some (2 ^ 64 - 1, [], none) := by
  decide

/-- C4: on a vector that satisfies I1 and for `i < size()`, a `try_lock(i)` run alone (its
exchange does not fail) returns `true` exactly when `get(i)` was `false` before the call,
and `get(i)` is `true` after the call whatever it returned. -/
theorem try_lock_true_iff_clear (v : AtomicBitVector) (i : Nat) (hI1 : I1 v) (hi : i < v.size)
    (fuel : Nat) (hfuel : 2 ≤ fuel) :
    ∃ b r, v.get i = some b ∧ v.try_lock fuel i = some r ∧
      (r.result = true ↔ b = false) ∧ r.vec.get i = some true := by
  obtain ⟨w, hw⟩ := word_of_I1 hI1 hi
  obtain ⟨k, rfl⟩ : ∃ k, fuel = k + 2 := ⟨fuel - 2, by omega⟩
  refine ⟨_, _, get_of_word hw, try_lock_of_word k hw, ?_, ?_⟩
  · cases hb : bit_of w (i % kBitsPerWord) <;> simp
  · cases hb : bit_of w (i % kBitsPerWord)
    · simp only [Bool.false_eq_true, if_false]
      rw [get_after_set hw, if_pos rfl]
    · simp only [if_true]
      rw [get_of_word hw, hb]

/-- Witness of C4: bit 70 of a vector of size 128 is clear before the call. -/
theorem try_lock_true_iff_clear_witness :
    I1 (AtomicBitVector.mk 128 [0xFFFF, 0x80]) ∧
    70 < (AtomicBitVector.mk 128 [0xFFFF, 0x80]).size ∧ 2 ≤ 2 ∧
    ∃ b r, (AtomicBitVector.mk 128 [0xFFFF, 0x80]).get 70 = some b ∧
      (AtomicBitVector.mk 128 [0xFFFF, 0x80]).try_lock 2 70 = some r ∧
      (r.result = true ↔ b = false) ∧ r.vec.get 70 = some true :=
  ⟨by decide, by decide, by decide,
    try_lock_true_iff_clear (AtomicBitVector.mk 128 [0xFFFF, 0x80]) 70 (by decide) (by decide) 2
      (by decide)⟩

/-- C5: on a vector that satisfies I1 and for `i < size()` whose bit is already 1,
`try_lock(i)` returns `false`, the vector after the call is the vector before it (every
word and the size), and the accesses of the call are the initial load followed by the
failed `while` test: the loop body, hence any compare-and-swap, is never executed. -/
theorem try_lock_locked_is_read_only (v : AtomicBitVector) (i : Nat) (hI1 : I1 v)
    (hi : i < v.size) (hset : v.get i = some true) (fuel : Nat) (hfuel : 2 ≤ fuel) :
    v.try_lock fuel i =
      some { result := false, vec := v, accesses := [Access.load, Access.exit] } := by
  obtain ⟨w, hw⟩ := word_of_I1 hI1 hi
  obtain ⟨k, rfl⟩ : ∃ k, fuel = k + 2 := ⟨fuel - 2, by omega⟩
  rw [get_of_word hw] at hset
  rw [try_lock_of_word k hw, if_pos (Option.some.inj hset)]

/-- Witness of C5: bit 71 of the vector is set before the call. -/
theorem try_lock_locked_is_read_only_witness :
    I1 (AtomicBitVector.mk 128 [0xFFFF, 0x80]) ∧
    71 < (AtomicBitVector.mk 128 [0xFFFF, 0x80]).size ∧
    (AtomicBitVector.mk 128 [0xFFFF, 0x80]).get 71 = some true ∧ 2 ≤ 2 ∧
    (AtomicBitVector.mk 128 [0xFFFF, 0x80]).try_lock 2 71 =
      some { result := false, vec := AtomicBitVector.mk 128 [0xFFFF, 0x80],
             accesses := [Access.load, Access.exit] } :=
  ⟨by decide, by decide, by decide, by decide,
    try_lock_locked_is_read_only (AtomicBitVector.mk 128 [0xFFFF, 0x80]) 71 (by decide)
      (by decide) (by decide) 2 (by decide)⟩

/-- C7: on a vector that satisfies I1 and for `i < size()` whose bit is clear, `try_lock(i)`
returns `true`; then any number `n` of further `try_lock(i)` calls all return `false` and
change nothing; then `unlock(i)` is defined and the next `try_lock(i)` returns `true`. -/
theorem try_lock_unlock_cycle (v : AtomicBitVector) (i : Nat) (hI1 : I1 v) (hi : i < v.size)
    (hclear : v.get i = some false) (fuel : Nat) (hfuel : 2 ≤ fuel) (n : Nat) :
    ∃ r1 v2 r3, v.try_lock fuel i = some r1 ∧ r1.result = true ∧
      try_lock_repeat fuel i n r1.vec = some (List.replicate n false, r1.vec) ∧
      r1.vec.unlock i = some v2 ∧
      v2.try_lock fuel i = some r3 ∧ r3.result = true := by
  obtain ⟨w, hw⟩ := word_of_I1 hI1 hi
  obtain ⟨k, rfl⟩ : ∃ k, fuel = k + 2 := ⟨fuel - 2, by omega⟩
  have hlen := lt_length_of_word hw
  rw [get_of_word hw] at hclear
  have hb : bit_of w (i % kBitsPerWord) = false := Option.some.inj hclear
  have hoff := mod_kBitsPerWord_lt i
  -- the vector after the first call and after the unlock
  let w1 := fetch_or w (bit_mask (i % kBitsPerWord))
  let v1 : AtomicBitVector :=
    { size_ := v.size_, data_array_ := v.data_array_.set (i / kBitsPerWord) w1 }
  have hw1 : v1.data_array_[i / kBitsPerWord]? = some w1 := word_after_update w1 hlen
  have hb1 : bit_of w1 (i % kBitsPerWord) = true := by
    simp [w1, bit_of_fetch_or_mask w hoff]
  let w2 := fetch_and w1 (word_not (bit_mask (i % kBitsPerWord)))
  let v2 : AtomicBitVector :=
    { size_ := v1.size_, data_array_ := v1.data_array_.set (i / kBitsPerWord) w2 }
  have hlen1 : i / kBitsPerWord < v1.data_array_.length := lt_length_of_word hw1
  have hw2 : v2.data_array_[i / kBitsPerWord]? = some w2 := word_after_update w2 hlen1
  have hb2 : bit_of w2 (i % kBitsPerWord) = false := by
    simp [w2, bit_of_fetch_and_mask w1 hoff hoff]
  refine ⟨{ result := true, vec := v1, accesses := [Access.load, Access.cas true] }, v2, _,
    ?_, rfl, try_lock_repeat_locked k hw1 hb1 n, unset_of_word hw1, try_lock_of_word k hw2, ?_⟩
  · rw [try_lock_of_word k hw, hb]
    rfl
  · rw [hb2]
    rfl

/-- Witness of C7: bit 70 of a vector of size 128, three further attempts. -/
theorem try_lock_unlock_cycle_witness :
    I1 (AtomicBitVector.mk 128 [0xFFFF, 0x80]) ∧
    70 < (AtomicBitVector.mk 128 [0xFFFF, 0x80]).size ∧
    (AtomicBitVector.mk 128 [0xFFFF, 0x80]).get 70 = some false ∧ 2 ≤ 2 ∧
    ∃ r1 v2 r3, (AtomicBitVector.mk 128 [0xFFFF, 0x80]).try_lock 2 70 = some r1 ∧
      r1.result = true ∧
      try_lock_repeat 2 70 3 r1.vec = some (List.replicate 3 false, r1.vec) ∧
      r1.vec.unlock 70 = some v2 ∧
      v2.try_lock 2 70 = some r3 ∧ r3.result = true :=
  ⟨by decide, by decide, by decide, by decide,
    try_lock_unlock_cycle (AtomicBitVector.mk 128 [0xFFFF, 0x80]) 70 (by decide) (by decide)
      (by decide) 2 (by decide) 3⟩

end kmlib

/-! ## Construction from a buffer, `reset`, `swap` -/

namespace kmlib

/-- C8: for every size and every source buffer that holds at least `ceil(size / 64)`
words and fewer than `2 ^ 58` words (a buffer of `2 ^ 58` words takes `2 ^ 61` bytes, more
than an address space holds), the constructor is defined, the vector has that size, and
for every `i` below the size `get(i)` is bit `i % 64`, counted from the least significant
bit, of word `i / 64` of the buffer. -/
theorem ctor_from_buffer_round_trip (size : Nat) (buf : List Nat)
    (hbuf : (size + (kBitsPerWord - 1)) / kBitsPerWord ≤ buf.length)
    (hfits : buf.length < 2 ^ 58) :
    ∃ v, AtomicBitVector.ctor size (some buf) = some v ∧ v.size = size ∧
      ∀ i, i < size →
        ∃ w, buf[i / kBitsPerWord]? = some w ∧ v.get i = some (w.testBit (i % kBitsPerWord)) := by
  have hsize : size + 64 ≤ 2 ^ 64 := by
    simp only [kBitsPerWord, kBitsPerByte] at hbuf
    norm_num at hbuf hfits ⊢
    omega
  obtain ⟨v, hv, hs, _, hget⟩ := ctor_from_words hsize buf hbuf
  refine ⟨v, hv, hs, fun i hi => ?_⟩
  have hlt : i / kBitsPerWord < buf.length := by
    apply Nat.lt_of_lt_of_le _ hbuf
    simp only [kBitsPerWord, kBitsPerByte]
    omega
  refine ⟨buf[i / kBitsPerWord], List.getElem?_eq_getElem hlt, ?_⟩
  rw [hget i hi, List.getElem?_eq_getElem hlt]
  rfl

/-- Witness of C8: size 70 and a buffer of three words, one more than needed. -/
theorem ctor_from_buffer_round_trip_witness :
    (70 + (kBitsPerWord - 1)) / kBitsPerWord ≤ [0x8000000000000001, 0x21, 0xFF].length ∧
    [0x8000000000000001, 0x21, 0xFF].length < 2 ^ 58 ∧
    ∃ v, AtomicBitVector.ctor 70 (some [0x8000000000000001, 0x21, 0xFF]) = some v ∧
      v.size = 70 ∧
      ∀ i, i < 70 →
        ∃ w, [0x8000000000000001, 0x21, 0xFF][i / kBitsPerWord]? = some w ∧
          v.get i = some (w.testBit (i % kBitsPerWord)) :=
  ⟨by decide, by decide,
    ctor_from_buffer_round_trip 70 [0x8000000000000001, 0x21, 0xFF] (by decide) (by decide)⟩

/-- C9 (failing input): `reset(2 ^ 64 - 1)` on a vector of size 128 with bit 70 set leaves
a vector that reports the new size and has an empty array, so that `get(0)` reads outside
the array. -/
theorem reset_largest_size_get_undefined :
    (((AtomicBitVector.mk 128 [0, 0x40]).reset (2 ^ 64 - 1)).size,
      ((AtomicBitVector.mk 128 [0, 0x40]).reset (2 ^ 64 - 1)).data_array_,
      ((AtomicBitVector.mk 128 [0, 0x40]).reset (2 ^ 64 - 1)).get 0) =
      (2 ^ 64 - 1, [], none) := by
  decide

/-- C10: after `A.swap(B)`, the size of `A` and its `get(i)` at every `i` are those `B` had,
and the size of `B` and its `get(i)` at every `i` are those `A` had.  In particular, for
`A` of size 10 with bit 3 set and `B` of size 20 with bit 15 set, `A` ends with size 20 and
bit 15 set and `B` with size 10 and bit 3 set. -/
theorem swap_exchanges (a b : AtomicBitVector) :
    ((a.swap b).1.size = b.size ∧ ∀ i, (a.swap b).1.get i = b.get i) ∧
    ((a.swap b).2.size = a.size ∧ ∀ i, (a.swap b).2.get i = a.get i) ∧
    (∃ a0 b0, (AtomicBitVector.ctor 10 none).bind (fun v => v.set 3) = some a0 ∧
      (AtomicBitVector.ctor 20 none).bind (fun v => v.set 15) = some b0 ∧
      (a0.swap b0).1.size = 20 ∧ (a0.swap b0).1.get 15 = some true ∧
      (a0.swap b0).2.size = 10 ∧ (a0.swap b0).2.get 3 = some true) := by
  refine ⟨⟨rfl, fun _ => rfl⟩, ⟨rfl, fun _ => rfl⟩, ?_⟩
  exact ⟨AtomicBitVector.mk 10 [8], AtomicBitVector.mk 20 [0x8000], by decide, by decide,
    by decide, by decide, by decide, by decide⟩

end kmlib

/-! ## Several threads in `try_lock` on the same bit -/

namespace kmlib

theorem step_loop_set {off o : Nat} (h : bit_of o off = true) (sp : Bool) (word : Nat) :
    try_lock_step off sp (LockPc.loop o) word =
      { pc := LockPc.ret false, word := word, access := Access.exit } := by
  simp [try_lock_step, h]

theorem step_loop_win {off o : Nat} (h : bit_of o off = false) :
    try_lock_step off false (LockPc.loop o) o =
      { pc := LockPc.ret true, word := fetch_or o (bit_mask off), access := Access.cas true } := by
  simp [try_lock_step, h, compare_exchange_weak, fetch_or]

theorem step_loop_fail {off o word : Nat} {sp : Bool} (h : bit_of o off = false)
    (hf : ¬ (word = o ∧ sp = false)) :
    try_lock_step off sp (LockPc.loop o) word =
      { pc := LockPc.loop word, word := word, access := Access.cas false } := by
  simp only [try_lock_step, h, compare_exchange_weak, if_neg hf]
  rfl

theorem system_step_of_thread {off : Nat} {s : LockSystem} {t : Nat} {pc : LockPc} (sp : Bool)
    (h : s.threads[t]? = some pc) :
    s.step off t sp = { word := (try_lock_step off sp pc s.word).word,
                        threads := s.threads.set t (try_lock_step off sp pc s.word).pc } := by
  unfold LockSystem.step
  simp only [h]

theorem system_step_of_no_thread {off : Nat} {s : LockSystem} {t : Nat} (sp : Bool)
    (h : s.threads[t]? = none) : s.step off t sp = s := by
  unfold LockSystem.step
  simp only [h]

theorem bit_of_fetch_or_self {off : Nat} (hoff : off < 64) (w : Nat) :
    bit_of (fetch_or w (bit_mask off)) off = true := by
  simp [bit_of_fetch_or_mask w hoff]

theorem fetch_or_ne_of_clear {off w : Nat} (hoff : off < 64) (hb : bit_of w off = false) :
    fetch_or w (bit_mask off) ≠ w := by
  intro h
  have h1 := bit_of_fetch_or_self hoff w
  rw [h, hb] at h1
  cases h1

theorem lt_length_of_word_pc {l : List LockPc} {a : Nat} {pc : LockPc} (h : l[a]? = some pc) :
    a < l.length := by
  by_contra hc
  rw [List.getElem?_eq_none (Nat.le_of_not_lt hc)] at h
  cases h

theorem count_ret_true_set {l : List LockPc} {t : Nat} {pc pc1 : LockPc}
    (ht : l[t]? = some pc) (hiff : pc1 = LockPc.ret true ↔ pc = LockPc.ret true) :
    (l.set t pc1).count (LockPc.ret true) = l.count (LockPc.ret true) := by
  have hlt := lt_length_of_word_pc ht
  have hget : l[t] = pc := by
    rw [List.getElem?_eq_getElem hlt] at ht
    exact Option.some.inj ht
  rw [List.count_set _ _ _ _ hlt, hget]
  by_cases hp : pc = LockPc.ret true
  · have hpos : 0 < l.count (LockPc.ret true) :=
      List.count_pos_iff.mpr (hp ▸ List.getElem?_mem ht)
    simp only [hiff.mpr hp, hp, beq_self_eq_true, if_true]
    omega
  · have hp1 : ¬ pc1 = LockPc.ret true := fun e => hp (hiff.mp e)
    simp [hp, hp1]

end kmlib

namespace kmlib

/-- Every step of every thread keeps the invariant. -/
theorem inv_step {off w : Nat} (hoff : off < 64) (hb : bit_of w off = false)
    {s : LockSystem} (h : s.Inv off w) (t : Nat) (sp : Bool) : (s.step off t sp).Inv off w := by
  cases ht : s.threads[t]? with
  | none => rw [system_step_of_no_thread sp ht]; exact h
  | some pc =>
    rw [system_step_of_thread sp ht]
    have hmem : pc ∈ s.threads := List.getElem?_mem ht
    have hlt := lt_length_of_word_pc ht
    have hb1 := bit_of_fetch_or_self hoff w
    have hne := fetch_or_ne_of_clear hoff hb
    rcases h with ⟨hw, hall⟩ | ⟨hw, hcnt, hall⟩
    · -- the word is still `w`
      rcases hall pc hmem with rfl | rfl
      · left
        refine ⟨hw, fun pc1 h1 => ?_⟩
        rcases List.mem_or_eq_of_mem_set h1 with h2 | h2
        · exact hall pc1 h2
        · right; rw [h2]; simp only [try_lock_step, load, hw]
      · cases sp with
        | true =>
          left
          rw [step_loop_fail hb (by simp)]
          refine ⟨hw, fun pc1 h1 => ?_⟩
          rcases List.mem_or_eq_of_mem_set h1 with h2 | h2
          · exact hall pc1 h2
          · right; rw [h2, hw]
        | false =>
          right
          rw [hw, step_loop_win hb]
          refine ⟨rfl, ?_, fun pc1 h1 => ?_⟩
          · have hzero : s.threads.count (LockPc.ret true) = 0 := by
              rw [List.count_eq_zero]
              intro hin
              rcases hall _ hin with h3 | h3 <;> cases h3
            have hget : s.threads[t] = LockPc.loop w := by
              rw [List.getElem?_eq_getElem hlt] at ht
              exact Option.some.inj ht
            rw [List.count_set _ _ _ _ hlt, hget, hzero]
            simp
          · rcases List.mem_or_eq_of_mem_set h1 with h2 | h2
            · rcases hall pc1 h2 with h3 | h3
              · exact Or.inl h3
              · exact Or.inr (Or.inl h3)
            · exact Or.inr (Or.inr (Or.inr (Or.inr h2)))
    · -- the bit has been set by the winner
      right
      have key : ∀ pc1 : LockPc, (try_lock_step off sp pc s.word).word = s.word →
          (try_lock_step off sp pc s.word).pc = pc1 →
          (pc1 = LockPc.ret true ↔ pc = LockPc.ret true) →
          (pc1 = LockPc.entry ∨ pc1 = LockPc.loop w ∨
            pc1 = LockPc.loop (fetch_or w (bit_mask off)) ∨ pc1 = LockPc.ret false ∨
            pc1 = LockPc.ret true) →
          LockSystem.word { word := (try_lock_step off sp pc s.word).word,
                            threads := s.threads.set t (try_lock_step off sp pc s.word).pc } =
              fetch_or w (bit_mask off) ∧
            List.count (LockPc.ret true)
                (s.threads.set t (try_lock_step off sp pc s.word).pc) = 1 ∧
            ∀ pc2 ∈ s.threads.set t (try_lock_step off sp pc s.word).pc,
              pc2 = LockPc.entry ∨ pc2 = LockPc.loop w ∨
              pc2 = LockPc.loop (fetch_or w (bit_mask off)) ∨ pc2 = LockPc.ret false ∨
              pc2 = LockPc.ret true := by
        intro pc1 hword hpc hiff hok
        refine ⟨hword.trans hw, ?_, fun pc2 h2 => ?_⟩
        · rw [hpc, count_ret_true_set ht hiff, hcnt]
        · rcases List.mem_or_eq_of_mem_set h2 with h3 | h3
          · exact hall pc2 h3
          · rw [h3, hpc]; exact hok
      rcases hall pc hmem with rfl | rfl | rfl | rfl | rfl
      · exact key (LockPc.loop s.word) rfl rfl (by simp)
          (Or.inr (Or.inr (Or.inl (by rw [hw]))))
      · have hf : ¬ (s.word = w ∧ sp = false) := fun e => hne (hw ▸ e.1)
        exact key (LockPc.loop s.word) (by rw [step_loop_fail hb hf])
          (by rw [step_loop_fail hb hf]) (by simp) (Or.inr (Or.inr (Or.inl (by rw [hw]))))
      · exact key (LockPc.ret false) (by rw [step_loop_set hb1])
          (by rw [step_loop_set hb1]) (by simp) (Or.inr (Or.inr (Or.inr (Or.inl rfl))))
      · exact key (LockPc.ret false) rfl rfl (by simp) (Or.inr (Or.inr (Or.inr (Or.inl rfl))))
      · exact key (LockPc.ret true) rfl rfl (by simp) (Or.inr (Or.inr (Or.inr (Or.inr rfl))))

theorem inv_run {off w : Nat} (hoff : off < 64) (hb : bit_of w off = false)
    (sched : List (Nat × Bool)) :
    ∀ s : LockSystem, s.Inv off w → (s.run off sched).Inv off w := by
  induction sched with
  | nil => intro s h; exact h
  | cons e rest ih =>
    intro s h
    obtain ⟨t, sp⟩ := e
    exact ih _ (inv_step hoff hb h t sp)

theorem inv_init (off w n : Nat) : (LockSystem.init w n).Inv off w := by
  left
  refine ⟨rfl, fun pc h => Or.inl ?_⟩
  exact List.eq_of_mem_replicate h

end kmlib

namespace kmlib

theorem rank_loop_le (off o : Nat) : (LockPc.loop o).rank off ≤ 2 := by
  show (if bit_of o off then 1 else 2) ≤ 2
  cases bit_of o off <;> decide

/-- An own step never raises the rank of a thread and lowers it when it is not a spurious
failure. -/
theorem rank_try_lock_step {off w : Nat} (hoff : off < 64) (hb : bit_of w off = false)
    {word : Nat} (hword : word = w ∨ word = fetch_or w (bit_mask off)) {pc : LockPc}
    (hpc : pc = LockPc.entry ∨ pc = LockPc.loop w ∨
      pc = LockPc.loop (fetch_or w (bit_mask off)) ∨ pc = LockPc.ret false ∨
      pc = LockPc.ret true) (sp : Bool) :
    (try_lock_step off sp pc word).pc.rank off ≤
      pc.rank off - (if sp = false then 1 else 0) := by
  have hb1 := bit_of_fetch_or_self hoff w
  have hne := fetch_or_ne_of_clear hoff hb
  rcases hpc with rfl | rfl | rfl | rfl | rfl
  · have h2 := rank_loop_le off word
    have h3 : LockPc.entry.rank off = 3 := rfl
    simp only [try_lock_step, load, h3]
    split <;> omega
  · have h2 : (LockPc.loop w).rank off = 2 := by simp [LockPc.rank, hb]
    rw [h2]
    cases sp with
    | true =>
      rw [step_loop_fail hb (by simp)]
      simpa using rank_loop_le off word
    | false =>
      rcases hword with rfl | rfl
      · rw [step_loop_win hb]
        simp [LockPc.rank]
      · rw [step_loop_fail hb (fun e => hne e.1)]
        simp [LockPc.rank, hb1]
  · rw [step_loop_set hb1]
    simp [LockPc.rank]
  · simp [try_lock_step, LockPc.rank]
  · simp [try_lock_step, LockPc.rank]

theorem inv_facts {off w : Nat} {s : LockSystem} (h : s.Inv off w) :
    (s.word = w ∨ s.word = fetch_or w (bit_mask off)) ∧
      ∀ pc ∈ s.threads, pc = LockPc.entry ∨ pc = LockPc.loop w ∨
        pc = LockPc.loop (fetch_or w (bit_mask off)) ∨ pc = LockPc.ret false ∨
        pc = LockPc.ret true := by
  rcases h with ⟨hw, hall⟩ | ⟨hw, _, hall⟩
  · refine ⟨Or.inl hw, fun pc hpc => ?_⟩
    rcases hall pc hpc with h1 | h1
    · exact Or.inl h1
    · exact Or.inr (Or.inl h1)
  · exact ⟨Or.inr hw, hall⟩

theorem rank_step {off w : Nat} (hoff : off < 64) (hb : bit_of w off = false)
    {s : LockSystem} (h : s.Inv off w) (t1 : Nat) (sp : Bool) (t : Nat) :
    (s.step off t1 sp).rankAt off t ≤
      s.rankAt off t - (if (t1 == t && !sp) = true then 1 else 0) := by
  cases ht : s.threads[t1]? with
  | none =>
    rw [system_step_of_no_thread sp ht]
    by_cases htt : t1 = t
    · subst htt
      simp [LockSystem.rankAt, ht]
    · simp [htt]
  | some pc =>
    rw [system_step_of_thread sp ht]
    by_cases htt : t1 = t
    · subst htt
      have hlt := lt_length_of_word_pc ht
      obtain ⟨hword, hall⟩ := inv_facts h
      have hr := rank_try_lock_step hoff hb hword (hall pc (List.getElem?_mem ht)) sp
      simp only [LockSystem.rankAt, List.getElem?_set, if_pos hlt, if_true, ht]
      cases sp <;> simpa using hr
    · simp only [LockSystem.rankAt, List.getElem?_set_ne htt]
      simp [htt]

theorem rank_run {off w : Nat} (hoff : off < 64) (hb : bit_of w off = false) (t : Nat)
    (sched : List (Nat × Bool)) :
    ∀ s : LockSystem, s.Inv off w →
      (s.run off sched).rankAt off t ≤ s.rankAt off t - sound_steps t sched := by
  induction sched with
  | nil => intro s _; exact Nat.le_refl _
  | cons e rest ih =>
    intro s h
    obtain ⟨t1, sp⟩ := e
    have h1 := ih _ (inv_step hoff hb h t1 sp)
    have h2 := rank_step hoff hb h t1 sp t
    have h3 : sound_steps t ((t1, sp) :: rest) =
        sound_steps t rest + (if (t1 == t && !sp) = true then 1 else 0) := by
      unfold sound_steps
      rw [List.countP_cons]
    rw [h3]
    show ((s.step off t1 sp).run off rest).rankAt off t ≤ _
    omega

theorem run_length (off : Nat) (sched : List (Nat × Bool)) :
    ∀ s : LockSystem, (s.run off sched).threads.length = s.threads.length := by
  induction sched with
  | nil => intro s; rfl
  | cons e rest ih =>
    intro s
    obtain ⟨t1, sp⟩ := e
    show ((s.step off t1 sp).run off rest).threads.length = _
    rw [ih]
    unfold LockSystem.step
    split
    · rfl
    · simp

theorem count_returned (l : List LockPc) (h : ∀ pc ∈ l, pc.returned = true) :
    l.count (LockPc.ret true) + l.count (LockPc.ret false) = l.length := by
  induction l with
  | nil => rfl
  | cons a rest ih =>
    have h1 := ih (fun pc hpc => h pc (List.mem_cons_of_mem _ hpc))
    have h2 := h a (List.mem_cons_self _ _)
    match a, h2 with
    | LockPc.ret true, _ => simp [List.count_cons]; omega
    | LockPc.ret false, _ => simp [List.count_cons]; omega

end kmlib

namespace kmlib

theorem rank_le_three (off : Nat) (pc : LockPc) : pc.rank off ≤ 3 := by
  cases pc with
  | entry => exact Nat.le_refl 3
  | loop o => exact Nat.le_trans (rank_loop_le off o) (by decide)
  | ret b => exact Nat.zero_le 3

theorem returned_of_rank_zero {off : Nat} {pc : LockPc} (h : pc.rank off = 0) :
    pc.returned = true := by
  cases pc with
  | entry => cases h
  | loop o =>
    have h1 : (if bit_of o off then 1 else 2) = 0 := h
    cases hb : bit_of o off <;> rw [hb] at h1 <;> cases h1
  | ret b => rfl

/-- C6: on a vector that satisfies I1, for `i < size()` whose bit is clear and for `n ≥ 1`
threads that each call `try_lock(i)` once, under every schedule of their steps (one atomic
access per step, the weak exchange free to fail spuriously where the schedule says so):
once every call has returned, exactly one has returned `true` and the other `n - 1` have
returned `false`, and the word is the initial word with bit `i` set; and every call has
returned as soon as the schedule has given each thread three steps that are not spurious
failures. -/
theorem try_lock_exactly_one_winner (v : AtomicBitVector) (i : Nat) (hI1 : I1 v)
    (hi : i < v.size) (hclear : v.get i = some false) (n : Nat) (hn : 1 ≤ n)
    (sched : List (Nat × Bool)) :
    ∃ w, v.data_array_[i / kBitsPerWord]? = some w ∧
      (((LockSystem.init w n).run (i % kBitsPerWord) sched).finished = true →
        ((LockSystem.init w n).run (i % kBitsPerWord) sched).threads.count (LockPc.ret true) = 1 ∧
        ((LockSystem.init w n).run (i % kBitsPerWord) sched).threads.count (LockPc.ret false) =
          n - 1 ∧
        ((LockSystem.init w n).run (i % kBitsPerWord) sched).word =
          fetch_or w (bit_mask (i % kBitsPerWord))) ∧
      ((∀ t, t < n → 3 ≤ sound_steps t sched) →
        ((LockSystem.init w n).run (i % kBitsPerWord) sched).finished = true) := by
  obtain ⟨w, hw⟩ := word_of_I1 hI1 hi
  rw [get_of_word hw] at hclear
  have hb : bit_of w (i % kBitsPerWord) = false := Option.some.inj hclear
  have hoff := mod_kBitsPerWord_lt i
  have hinv := inv_run hoff hb sched _ (inv_init (i % kBitsPerWord) w n)
  have hlen : ((LockSystem.init w n).run (i % kBitsPerWord) sched).threads.length = n := by
    rw [run_length]
    exact List.length_replicate _ _
  refine ⟨w, hw, ?_, ?_⟩
  · intro hfin
    have hall : ∀ pc ∈ ((LockSystem.init w n).run (i % kBitsPerWord) sched).threads,
        pc.returned = true := List.all_eq_true.mp hfin
    have hsum := count_returned _ hall
    rcases hinv with ⟨_, hA⟩ | ⟨hword, hcnt, _⟩
    · exfalso
      have h0 : 0 < ((LockSystem.init w n).run (i % kBitsPerWord) sched).threads.length := by
        omega
      have hmem := List.getElem_mem h0
      have hret := hall _ hmem
      rcases hA _ hmem with h1 | h1 <;> rw [h1] at hret <;> cases hret
    · exact ⟨hcnt, by omega, hword⟩
  · intro hfair
    apply List.all_eq_true.mpr
    intro pc hpc
    obtain ⟨t, ht⟩ := List.mem_iff_getElem?.mp hpc
    have htn : t < n := hlen ▸ lt_length_of_word_pc ht
    have hr := rank_run hoff hb t sched _ (inv_init (i % kBitsPerWord) w n)
    have h3 : (LockSystem.init w n).rankAt (i % kBitsPerWord) t ≤ 3 := by
      unfold LockSystem.rankAt
      split
      · exact rank_le_three _ _
      · exact Nat.zero_le 3
    have hpcr : ((LockSystem.init w n).run (i % kBitsPerWord) sched).rankAt
        (i % kBitsPerWord) t = pc.rank (i % kBitsPerWord) := by
      simp only [LockSystem.rankAt, ht]
    have hs := hfair t htn
    have hz : pc.rank (i % kBitsPerWord) = 0 := by omega
    exact returned_of_rank_zero hz

/-- Witness of C6: three threads on bit 70 of a vector of size 128 whose word 1 holds bit 71;
thread 1 suffers one spurious failure, thread 2 wins, and the schedule lets every call
return. -/
theorem try_lock_exactly_one_winner_witness :
    I1 (AtomicBitVector.mk 128 [0xFFFF, 0x80]) ∧
    70 < (AtomicBitVector.mk 128 [0xFFFF, 0x80]).size ∧
    (AtomicBitVector.mk 128 [0xFFFF, 0x80]).get 70 = some false ∧ 1 ≤ 3 ∧
    ((LockSystem.init 0x80 3).run (70 % kBitsPerWord)
          [(0, false), (1, false), (1, true), (2, false), (2, false), (0, false), (1, false),
            (0, false), (1, false), (2, false)]).finished = true ∧
    ∃ w, (AtomicBitVector.mk 128 [0xFFFF, 0x80]).data_array_[70 / kBitsPerWord]? = some w ∧
      (((LockSystem.init w 3).run (70 % kBitsPerWord)
          [(0, false), (1, false), (1, true), (2, false), (2, false), (0, false), (1, false),
            (0, false), (1, false), (2, false)]).finished = true →
        ((LockSystem.init w 3).run (70 % kBitsPerWord)
          [(0, false), (1, false), (1, true), (2, false), (2, false), (0, false), (1, false),
            (0, false), (1, false), (2, false)]).threads.count (LockPc.ret true) = 1 ∧
        ((LockSystem.init w 3).run (70 % kBitsPerWord)
          [(0, false), (1, false), (1, true), (2, false), (2, false), (0, false), (1, false),
            (0, false), (1, false), (2, false)]).threads.count (LockPc.ret false) = 3 - 1 ∧
        ((LockSystem.init w 3).run (70 % kBitsPerWord)
          [(0, false), (1, false), (1, true), (2, false), (2, false), (0, false), (1, false),
            (0, false), (1, false), (2, false)]).word =
          fetch_or w (bit_mask (70 % kBitsPerWord))) ∧
      ((∀ t, t < 3 → 3 ≤ sound_steps t
          [(0, false), (1, false), (1, true), (2, false), (2, false), (0, false), (1, false),
            (0, false), (1, false), (2, false)]) →
        ((LockSystem.init w 3).run (70 % kBitsPerWord)
          [(0, false), (1, false), (1, true), (2, false), (2, false), (0, false), (1, false),
            (0, false), (1, false), (2, false)]).finished = true) :=
  ⟨by decide, by decide, by decide, by decide, by decide,
    try_lock_exactly_one_winner (AtomicBitVector.mk 128 [0xFFFF, 0x80]) 70 (by decide)
      (by decide) (by decide) 3 (by decide) _⟩

end kmlib

/-! ## Idempotence, `unlock`, `lock`, and definedness of in-range accesses -/

namespace kmlib

theorem set_word_same {l : List Nat} {a x : Nat} (h : l[a]? = some x) : l.set a x = l := by
  apply List.ext_getElem?
  intro n
  rw [List.getElem?_set]
  split
  · next hn =>
    subst hn
    rw [if_pos (lt_length_of_word h)]
    exact h.symm
  · rfl

theorem fetch_or_mask_twice (w m : Nat) : fetch_or (fetch_or w m) m = fetch_or w m := by
  unfold fetch_or
  rw [Nat.or_assoc, Nat.or_self]

theorem fetch_and_mask_twice (w m : Nat) : fetch_and (fetch_and w m) m = fetch_and w m := by
  unfold fetch_and
  rw [Nat.and_assoc, Nat.and_self]

/-- Clearing a bit that is clear in a 64-bit word gives the word back. -/
theorem fetch_and_of_clear {w k : Nat} (hw : w < wordModulus) (hk : k < 64)
    (hb : bit_of w k = false) : fetch_and w (word_not (bit_mask k)) = w := by
  apply Nat.eq_of_testBit_eq
  intro j
  by_cases hj : j < 64
  · have h := bit_of_fetch_and_mask w hk hj
    rw [bit_of_eq_testBit, bit_of_eq_testBit] at h
    rw [h]
    by_cases hkj : k = j
    · subst hkj
      rw [bit_of_eq_testBit] at hb
      simp [hb]
    · simp [hkj]
  · have hle : 2 ^ 64 ≤ 2 ^ j := Nat.pow_le_pow_right (by decide) (Nat.le_of_not_lt hj)
    have hwj : w.testBit j = false :=
      Nat.testBit_lt_two_pow (Nat.lt_of_lt_of_le hw hle)
    unfold fetch_and
    rw [Nat.testBit_and, hwj, Bool.false_and]

/-- C12: on a vector that satisfies I1 and for `i < size()`, `set(i)` is defined and a second
`set(i)` leaves the state (size and every word) that the first one produced; the same for
`unset(i)`. -/
theorem set_unset_idempotent (v : AtomicBitVector) (i : Nat) (hI1 : I1 v) (hi : i < v.size) :
    (∃ v1, v.set i = some v1 ∧ v1.set i = some v1) ∧
    (∃ v1, v.unset i = some v1 ∧ v1.unset i = some v1) := by
  obtain ⟨w, hw⟩ := word_of_I1 hI1 hi
  have hlen := lt_length_of_word hw
  constructor
  · refine ⟨_, set_of_word hw, ?_⟩
    have h1 : (AtomicBitVector.mk v.size_ (v.data_array_.set (i / kBitsPerWord)
        (fetch_or w (bit_mask (i % kBitsPerWord))))).data_array_[i / kBitsPerWord]? =
        some (fetch_or w (bit_mask (i % kBitsPerWord))) := word_after_update _ hlen
    rw [set_of_word h1, fetch_or_mask_twice, List.set_set]
  · refine ⟨_, unset_of_word hw, ?_⟩
    have h1 : (AtomicBitVector.mk v.size_ (v.data_array_.set (i / kBitsPerWord)
        (fetch_and w (word_not (bit_mask (i % kBitsPerWord)))))).data_array_[i / kBitsPerWord]? =
        some (fetch_and w (word_not (bit_mask (i % kBitsPerWord)))) := word_after_update _ hlen
    rw [unset_of_word h1, fetch_and_mask_twice, List.set_set]

/-- Witness of C12: bit 70 of a vector of size 128. -/
theorem set_unset_idempotent_witness :
    I1 (AtomicBitVector.mk 128 [0xFFFF, 0x80]) ∧
    70 < (AtomicBitVector.mk 128 [0xFFFF, 0x80]).size ∧
    (∃ v1, (AtomicBitVector.mk 128 [0xFFFF, 0x80]).set 70 = some v1 ∧ v1.set 70 = some v1) ∧
    (∃ v1, (AtomicBitVector.mk 128 [0xFFFF, 0x80]).unset 70 = some v1 ∧
      v1.unset 70 = some v1) :=
  ⟨by decide, by decide,
    set_unset_idempotent (AtomicBitVector.mk 128 [0xFFFF, 0x80]) 70 (by decide) (by decide)⟩

/-- C13: `unlock(i)` is `unset(i)`: on a vector of 64-bit words that satisfies I1 and for
`i < size()` the two give the same, defined, state; nothing identifies the caller and
nothing but the state is returned; and when bit `i` is already 0 the state after
`unlock(i)` is the state before it. -/
theorem unlock_is_unset (v : AtomicBitVector) (i : Nat) (hI1 : I1 v) (hi : i < v.size)
    (hrange : words_in_range v) :
    v.unlock i = v.unset i ∧ (∃ v1, v.unlock i = some v1) ∧
      (v.get i = some false → v.unlock i = some v) := by
  obtain ⟨w, hw⟩ := word_of_I1 hI1 hi
  refine ⟨rfl, ⟨_, unset_of_word hw⟩, fun hclear => ?_⟩
  rw [get_of_word hw] at hclear
  have hb : bit_of w (i % kBitsPerWord) = false := Option.some.inj hclear
  have hwr : w < wordModulus := hrange w (List.getElem?_mem hw)
  show v.unset i = some v
  rw [unset_of_word hw, fetch_and_of_clear hwr (mod_kBitsPerWord_lt i) hb, set_word_same hw]

/-- Witness of C13: bit 70 of the vector is clear. -/
theorem unlock_is_unset_witness :
    I1 (AtomicBitVector.mk 128 [0xFFFF, 0x80]) ∧
    70 < (AtomicBitVector.mk 128 [0xFFFF, 0x80]).size ∧
    words_in_range (AtomicBitVector.mk 128 [0xFFFF, 0x80]) ∧
    (AtomicBitVector.mk 128 [0xFFFF, 0x80]).unlock 70 =
      (AtomicBitVector.mk 128 [0xFFFF, 0x80]).unset 70 ∧
    (∃ v1, (AtomicBitVector.mk 128 [0xFFFF, 0x80]).unlock 70 = some v1) ∧
    ((AtomicBitVector.mk 128 [0xFFFF, 0x80]).get 70 = some false →
      (AtomicBitVector.mk 128 [0xFFFF, 0x80]).unlock 70 =
        some (AtomicBitVector.mk 128 [0xFFFF, 0x80])) :=
  ⟨by decide, by decide, by decide,
    unlock_is_unset (AtomicBitVector.mk 128 [0xFFFF, 0x80]) 70 (by decide) (by decide)
      (by decide)⟩

/-- C14: on a vector that satisfies I1 and for `i < size()` whose bit is clear, `lock(i)`
run alone returns after one `try_lock` call and leaves the state that `set(i)` gives: bit
`i` is 1 and every other bit is as before. -/
theorem lock_of_clear_bit (v : AtomicBitVector) (i : Nat) (hI1 : I1 v) (hi : i < v.size)
    (hclear : v.get i = some false) (try_fuel : Nat) (htry : 2 ≤ try_fuel)
    (fuel : Nat) (hfuel : 1 ≤ fuel) :
    ∃ v1, v.set i = some v1 ∧ v.lock try_fuel i fuel = some (v1, 1) ∧
      v1.get i = some true ∧ ∀ j, j ≠ i → v1.get j = v.get j := by
  obtain ⟨w, hw⟩ := word_of_I1 hI1 hi
  obtain ⟨k, rfl⟩ : ∃ k, try_fuel = k + 2 := ⟨try_fuel - 2, by omega⟩
  obtain ⟨m, rfl⟩ : ∃ m, fuel = m + 1 := ⟨fuel - 1, by omega⟩
  rw [get_of_word hw] at hclear
  have hb : bit_of w (i % kBitsPerWord) = false := Option.some.inj hclear
  refine ⟨_, set_of_word hw, ?_, ?_, fun j hj => ?_⟩
  · unfold AtomicBitVector.lock
    rw [try_lock_of_word k hw, hb]
    rfl
  · rw [get_after_set hw, if_pos rfl]
  · rw [get_after_set hw, if_neg (Ne.symm hj)]

/-- Witness of C14: bit 70 of a vector of size 128 is clear. -/
theorem lock_of_clear_bit_witness :
    I1 (AtomicBitVector.mk 128 [0xFFFF, 0x80]) ∧
    70 < (AtomicBitVector.mk 128 [0xFFFF, 0x80]).size ∧
    (AtomicBitVector.mk 128 [0xFFFF, 0x80]).get 70 = some false ∧ 2 ≤ 2 ∧ 1 ≤ 1 ∧
    ∃ v1, (AtomicBitVector.mk 128 [0xFFFF, 0x80]).set 70 = some v1 ∧
      (AtomicBitVector.mk 128 [0xFFFF, 0x80]).lock 2 70 1 = some (v1, 1) ∧
      v1.get 70 = some true ∧
      ∀ j, j ≠ 70 → v1.get j = (AtomicBitVector.mk 128 [0xFFFF, 0x80]).get j :=
  ⟨by decide, by decide, by decide, by decide, by decide,
    lock_of_clear_bit (AtomicBitVector.mk 128 [0xFFFF, 0x80]) 70 (by decide) (by decide)
      (by decide) 2 (by decide) 1 (by decide)⟩

/-- C19: on a vector that satisfies I1 and for `i < size()`, the word index `i / 64` is
below the length of the array and the shift `i % 64` is below 64, so that `get`, `set`,
`unset` and `try_lock` (given fuel for its two steps) never take the out-of-bounds
branch. -/
theorem in_range_access_defined (v : AtomicBitVector) (i : Nat) (hI1 : I1 v)
    (hi : i < v.size) :
    i / kBitsPerWord < v.data_array_.length ∧ i % kBitsPerWord < kBitsPerWord ∧
      (∃ b, v.get i = some b) ∧ (∃ v1, v.set i = some v1) ∧ (∃ v1, v.unset i = some v1) ∧
      ∀ fuel, 2 ≤ fuel → ∃ r, v.try_lock fuel i = some r := by
  obtain ⟨w, hw⟩ := word_of_I1 hI1 hi
  refine ⟨index_lt_of_I1 hI1 hi, Nat.mod_lt i (by decide), ⟨_, get_of_word hw⟩,
    ⟨_, set_of_word hw⟩, ⟨_, unset_of_word hw⟩, fun fuel hfuel => ?_⟩
  obtain ⟨k, rfl⟩ : ∃ k, fuel = k + 2 := ⟨fuel - 2, by omega⟩
  exact ⟨_, try_lock_of_word k hw⟩

/-- Witness of C19: the last index of a vector of size 65, which has two words. -/
theorem in_range_access_defined_witness :
    I1 (AtomicBitVector.mk 65 [0xFFFF, 0]) ∧ 64 < (AtomicBitVector.mk 65 [0xFFFF, 0]).size ∧
    64 / kBitsPerWord < (AtomicBitVector.mk 65 [0xFFFF, 0]).data_array_.length ∧
      64 % kBitsPerWord < kBitsPerWord ∧
      (∃ b, (AtomicBitVector.mk 65 [0xFFFF, 0]).get 64 = some b) ∧
      (∃ v1, (AtomicBitVector.mk 65 [0xFFFF, 0]).set 64 = some v1) ∧
      (∃ v1, (AtomicBitVector.mk 65 [0xFFFF, 0]).unset 64 = some v1) ∧
      ∀ fuel, 2 ≤ fuel → ∃ r, (AtomicBitVector.mk 65 [0xFFFF, 0]).try_lock fuel 64 = some r :=
  ⟨by decide, by decide,
    in_range_access_defined (AtomicBitVector.mk 65 [0xFFFF, 0]) 64 (by decide) (by decide)⟩

end kmlib

/-! ## Many `set` calls on a fresh vector -/

namespace kmlib

theorem I1_of_same_shape {v v1 : AtomicBitVector} (h : I1 v) (hs : v1.size_ = v.size_)
    (hl : v1.data_array_.length = v.data_array_.length) : I1 v1 := by
  unfold I1 at *
  rw [hs, hl, h]

theorem set_shape {v v1 : AtomicBitVector} {i : Nat} (h : v.set i = some v1) :
    v1.size_ = v.size_ ∧ v1.data_array_.length = v.data_array_.length := by
  unfold AtomicBitVector.set at h
  split at h
  · cases h
  · cases h
    exact ⟨rfl, List.length_set _ _ _⟩

theorem unset_shape {v v1 : AtomicBitVector} {i : Nat} (h : v.unset i = some v1) :
    v1.size_ = v.size_ ∧ v1.data_array_.length = v.data_array_.length := by
  unfold AtomicBitVector.unset at h
  split at h
  · cases h
  · cases h
    exact ⟨rfl, List.length_set _ _ _⟩

/-- Any list of `set` calls at indices below the size of a vector that satisfies I1, in the
order of the list: all calls are defined, the listed bits are set afterwards and the other
bits are as before. -/
theorem set_each_spec (indices : List Nat) :
    ∀ v : AtomicBitVector, I1 v → (∀ i ∈ indices, i < v.size) →
      ∃ v1, set_each indices v = some v1 ∧ I1 v1 ∧ v1.size = v.size ∧
        (∀ j ∈ indices, v1.get j = some true) ∧ (∀ j, j ∉ indices → v1.get j = v.get j) := by
  induction indices with
  | nil =>
    intro v h _
    exact ⟨v, rfl, h, rfl, fun j hj => absurd hj (List.not_mem_nil j), fun _ _ => rfl⟩
  | cons i rest ih =>
    intro v h hall
    have hi : i < v.size := hall i (List.mem_cons_self _ _)
    obtain ⟨w, hw⟩ := word_of_I1 h hi
    have hset := set_of_word hw
    have hshape := set_shape hset
    have hI1 := I1_of_same_shape h hshape.1 hshape.2
    have hget := get_after_set hw
    obtain ⟨v2, h2, hI2, hsize2, hin, hout⟩ :=
      ih _ hI1 (fun j hj => hall j (List.mem_cons_of_mem _ hj))
    refine ⟨v2, ?_, hI2, hsize2, fun j hj => ?_, fun j hj => ?_⟩
    · unfold set_each
      rw [hset]
      exact h2
    · by_cases hjr : j ∈ rest
      · exact hin j hjr
      · have hji : j = i := by
          rcases List.mem_cons.mp hj with h3 | h3
          · exact h3
          · exact absurd h3 hjr
        rw [hout j hjr, hget, if_pos hji.symm]
    · have hji : i ≠ j := fun e => hj (e ▸ List.mem_cons_self _ _)
      have hjr : j ∉ rest := fun e => hj (List.mem_cons_of_mem _ e)
      rw [hout j hjr, hget, if_neg hji]

/-- A size up to `2 ^ 64 - 64`: on the vector the constructor gives, `set` applied once to
each index of any list of indices below the size, in the order of the list, is defined and
leaves every listed bit set. -/
theorem set_each_on_fresh {size : Nat} (h : size + 64 ≤ 2 ^ 64) (indices : List Nat)
    (hall : ∀ i ∈ indices, i < size) :
    ∃ v v1, AtomicBitVector.ctor size none = some v ∧ set_each indices v = some v1 ∧
      ∀ j ∈ indices, v1.get j = some true := by
  obtain ⟨v, hv, hsize, hI1, _⟩ := ctor_fresh h
  obtain ⟨v1, h1, _, _, hin, _⟩ := set_each_spec indices v hI1 (fun i hi => hsize ▸ hall i hi)
  exact ⟨v, v1, hv, h1, hin⟩

/-- C11 (failing input): for `size = 2 ^ 64 - 1` the constructor allocates no word, so on
the fresh vector already the single call `set(0)`, at an index below the size, writes
outside the array. -/
theorem set_each_on_largest_size_undefined :
    (AtomicBitVector.ctor (2 ^ 64 - 1) none).map
        (fun v => (v.size, v.data_array_, set_each [0] v)) =
      some (2 ^ 64 - 1, [], none) := by
  decide

/-- A size up to `2 ^ 64 - 64` and `i` below it: after `set(i)` on the vector the
constructor gives, word `i / 64` is `2 ^ (i % 64)` and every other word of the array is
0. -/
theorem set_on_fresh_words {size : Nat} (h : size + 64 ≤ 2 ^ 64) {i : Nat} (hi : i < size) :
    ∃ v v1, AtomicBitVector.ctor size none = some v ∧ v.set i = some v1 ∧
      v1.data_array_.length = (size + (kBitsPerWord - 1)) / kBitsPerWord ∧
      v1.data_array_[i / kBitsPerWord]? = some (2 ^ (i % kBitsPerWord)) ∧
      ∀ k, k < v1.data_array_.length → k ≠ i / kBitsPerWord → v1.data_array_[k]? = some 0 := by
  have hc := word_count_eq_ceil h
  have hlt : i / kBitsPerWord < word_count size := by
    rw [hc]
    simp only [kBitsPerWord, kBitsPerByte]
    omega
  have hw : (AtomicBitVector.mk size (List.replicate (word_count size) 0)).data_array_[
      i / kBitsPerWord]? = some 0 := by
    simp only [List.getElem?_replicate, if_pos hlt]
  refine ⟨_, _, rfl, set_of_word hw, ?_, ?_, ?_⟩
  · simp only [List.length_set, List.length_replicate, hc]
  · simp only [List.getElem?_set, List.length_replicate, if_pos hlt, if_true, fetch_or,
      Nat.zero_or, bit_mask_eq (mod_kBitsPerWord_lt i)]
  · intro k hk hne
    simp only [List.length_set, List.length_replicate] at hk
    simp only [List.getElem?_set, if_neg (Ne.symm hne), List.getElem?_replicate, if_pos hk]

/-- C15 (failing input): for `size = 2 ^ 64 - 1` the fresh vector has no word at all, and
`set(0)`, at an index below the size, writes outside the array instead of making word 0
equal to `2 ^ 0`. -/
theorem set_on_largest_size_undefined :
    (AtomicBitVector.ctor (2 ^ 64 - 1) none).map
        (fun v => (v.size, v.data_array_[0 / kBitsPerWord]?, v.set 0)) =
      some (2 ^ 64 - 1, none, none) := by
  decide

end kmlib

/-! ## Moves, and what keeps invariant I1 -/

namespace kmlib

/-- C16: after move construction from `R`, and after move assignment from `R` to any
vector, the destination has the size `R` had and the same `get(i)` at every `i`; the words
are handed over, not duplicated: the move constructor leaves the array of `R` empty.  For
`R` of size 128 with bit 70 set, both destinations have size 128 and bit 70 set. -/
theorem move_hands_over (r v : AtomicBitVector) (residue : List Nat) :
    (r.move_ctor.1.size = r.size ∧ (∀ i, r.move_ctor.1.get i = r.get i) ∧
      r.move_ctor.2.data_array_ = []) ∧
    ((v.move_assign r residue).1.size = r.size ∧
      ∀ i, (v.move_assign r residue).1.get i = r.get i) ∧
    ((AtomicBitVector.mk 128 [0, 0x40]).move_ctor.1.size = 128 ∧
      (AtomicBitVector.mk 128 [0, 0x40]).move_ctor.1.get 70 = some true ∧
      ((AtomicBitVector.mk 10 [8]).move_assign (AtomicBitVector.mk 128 [0, 0x40]) []).1.size
        = 128 ∧
      ((AtomicBitVector.mk 10 [8]).move_assign (AtomicBitVector.mk 128 [0, 0x40]) []).1.get 70
        = some true) :=
  ⟨⟨rfl, fun _ => rfl, rfl⟩, ⟨rfl, fun _ => rfl⟩, by decide, by decide, by decide, by decide⟩

theorem try_lock_shape {v : AtomicBitVector} {fuel i : Nat} {r : LockResult}
    (h : v.try_lock fuel i = some r) :
    r.vec.size_ = v.size_ ∧ r.vec.data_array_.length = v.data_array_.length := by
  unfold AtomicBitVector.try_lock at h
  split at h
  · cases h
  · split at h
    · cases h
    · cases h
      exact ⟨rfl, List.length_set _ _ _⟩

theorem lock_shape (try_fuel i : Nat) (fuel : Nat) :
    ∀ (v : AtomicBitVector) (p : AtomicBitVector × Nat),
      v.lock try_fuel i fuel = some p →
      p.1.size_ = v.size_ ∧ p.1.data_array_.length = v.data_array_.length := by
  induction fuel with
  | zero =>
    intro v p h
    cases h
  | succ n ih =>
    intro v p h
    unfold AtomicBitVector.lock at h
    cases ht : v.try_lock try_fuel i with
    | none => rw [ht] at h; cases h
    | some r =>
      rw [ht] at h
      have hr := try_lock_shape ht
      by_cases hres : r.result = true
      · simp only [hres, if_true] at h
        cases h
        exact hr
      · simp only [hres, if_false] at h
        cases hl : AtomicBitVector.lock try_fuel i n r.vec with
        | none => rw [hl] at h; cases h
        | some q =>
          rw [hl] at h
          cases h
          have hq := ih r.vec q hl
          exact ⟨hq.1.trans hr.1, hq.2.trans hr.2⟩

theorem resize_words_length (data : List Nat) (n : Nat) :
    (resize_words data n).length = n := by
  unfold resize_words
  rw [List.length_append, List.length_take, List.length_replicate]
  omega

theorem FromPtr_body_shape {v v1 : AtomicBitVector} {size : Nat} {src : List Nat}
    (h : v.FromPtr_body size src = some v1) :
    v1.size_ = size ∧ v1.data_array_.length = word_count size := by
  unfold AtomicBitVector.FromPtr_body copy_words at h
  simp only [resize_words_length] at h
  split at h
  · cases h
    refine ⟨rfl, ?_⟩
    simp only [List.length_append, List.length_take, List.length_drop, resize_words_length]
    omega
  · cases h

theorem FromPtr_body_defined (v : AtomicBitVector) {size : Nat} {src : List Nat}
    (h : word_count size ≤ src.length) : ∃ v1, v.FromPtr_body size src = some v1 := by
  unfold AtomicBitVector.FromPtr_body copy_words
  simp only [resize_words_length, if_pos h]
  exact ⟨_, rfl⟩

/-- No call of `FromPtr` is defined. -/
theorem FromPtr_undefined (v : AtomicBitVector) (size : Nat) (src : List Nat) :
    v.FromPtr size src = none := by
  show (v.FromPtr_body size src).bind (fun _ => none) = none
  generalize v.FromPtr_body size src = body
  cases body <;> rfl

/-- C17 (counterexample): move construction from a vector of size 128 that satisfies I1
leaves a source of size 128 without any word, which does not satisfy I1. -/
theorem move_source_breaks_I1 :
    I1 (AtomicBitVector.mk 128 [0, 0x40]) ∧
      ¬ I1 (AtomicBitVector.mk 128 [0, 0x40]).move_ctor.2 := by
  decide

/-- C17 (amended): for vectors `v` and `rhs` that satisfy I1, I1 holds after `set`, `unset`,
`try_lock` and `unlock` at an index below the size (all defined), after every `lock` that
returns, for both vectors after `swap`, for the destination of a move construction or move
assignment, and after `reset(size)` for `size` up to `2 ^ 64 - 64`; the source of a move
construction keeps its size and loses its words, so that it satisfies I1 exactly when its
size is 0. -/
theorem I1_preserved (v rhs : AtomicBitVector) (hv : I1 v) (hrhs : I1 rhs) :
    (∀ i, i < v.size →
      (∃ v1, v.set i = some v1 ∧ I1 v1) ∧ (∃ v1, v.unset i = some v1 ∧ I1 v1) ∧
      (∀ fuel, 2 ≤ fuel → ∃ r, v.try_lock fuel i = some r ∧ I1 r.vec) ∧
      (∃ v1, v.unlock i = some v1 ∧ I1 v1)) ∧
    (∀ try_fuel i fuel p, v.lock try_fuel i fuel = some p → I1 p.1) ∧
    (I1 (v.swap rhs).1 ∧ I1 (v.swap rhs).2) ∧
    (I1 rhs.move_ctor.1 ∧ ∀ residue, I1 (v.move_assign rhs residue).1) ∧
    (∀ size, size + 64 ≤ 2 ^ 64 → I1 (v.reset size)) ∧
    (I1 rhs.move_ctor.2 ↔ rhs.size = 0) := by
  refine ⟨fun i hi => ?_, fun try_fuel i fuel p h => ?_, ⟨hrhs, hv⟩, ⟨hrhs, fun _ => hrhs⟩,
    fun size hsize => (reset_fresh v hsize).2.1, ?_⟩
  · obtain ⟨w, hw⟩ := word_of_I1 hv hi
    have hs := set_shape (set_of_word hw)
    have hu := unset_shape (unset_of_word hw)
    refine ⟨⟨_, set_of_word hw, I1_of_same_shape hv hs.1 hs.2⟩,
      ⟨_, unset_of_word hw, I1_of_same_shape hv hu.1 hu.2⟩, fun fuel hfuel => ?_,
      ⟨_, unset_of_word hw, I1_of_same_shape hv hu.1 hu.2⟩⟩
    obtain ⟨k, rfl⟩ : ∃ k, fuel = k + 2 := ⟨fuel - 2, by omega⟩
    have ht := try_lock_shape (try_lock_of_word k hw)
    exact ⟨_, try_lock_of_word k hw, I1_of_same_shape hv ht.1 ht.2⟩
  · have hl := lock_shape try_fuel i fuel v p h
    exact I1_of_same_shape hv hl.1 hl.2
  · unfold I1 AtomicBitVector.move_ctor AtomicBitVector.size
    simp only [List.length_nil, kBitsPerWord, kBitsPerByte]
    omega

/-- Witness of C17 (amended): two vectors that satisfy I1. -/
theorem I1_preserved_witness :
    I1 (AtomicBitVector.mk 128 [0xFFFF, 0x80]) ∧ I1 (AtomicBitVector.mk 10 [8]) ∧
    ((∀ i, i < (AtomicBitVector.mk 128 [0xFFFF, 0x80]).size →
      (∃ v1, (AtomicBitVector.mk 128 [0xFFFF, 0x80]).set i = some v1 ∧ I1 v1) ∧
      (∃ v1, (AtomicBitVector.mk 128 [0xFFFF, 0x80]).unset i = some v1 ∧ I1 v1) ∧
      (∀ fuel, 2 ≤ fuel →
        ∃ r, (AtomicBitVector.mk 128 [0xFFFF, 0x80]).try_lock fuel i = some r ∧ I1 r.vec) ∧
      (∃ v1, (AtomicBitVector.mk 128 [0xFFFF, 0x80]).unlock i = some v1 ∧ I1 v1)) ∧
    (∀ try_fuel i fuel p,
      (AtomicBitVector.mk 128 [0xFFFF, 0x80]).lock try_fuel i fuel = some p → I1 p.1) ∧
    (I1 ((AtomicBitVector.mk 128 [0xFFFF, 0x80]).swap (AtomicBitVector.mk 10 [8])).1 ∧
      I1 ((AtomicBitVector.mk 128 [0xFFFF, 0x80]).swap (AtomicBitVector.mk 10 [8])).2) ∧
    (I1 (AtomicBitVector.mk 10 [8]).move_ctor.1 ∧
      ∀ residue, I1 ((AtomicBitVector.mk 128 [0xFFFF, 0x80]).move_assign
        (AtomicBitVector.mk 10 [8]) residue).1) ∧
    (∀ size, size + 64 ≤ 2 ^ 64 → I1 ((AtomicBitVector.mk 128 [0xFFFF, 0x80]).reset size)) ∧
    (I1 (AtomicBitVector.mk 10 [8]).move_ctor.2 ↔ (AtomicBitVector.mk 10 [8]).size = 0)) :=
  ⟨by decide, by decide,
    I1_preserved (AtomicBitVector.mk 128 [0xFFFF, 0x80]) (AtomicBitVector.mk 10 [8])
      (by decide) (by decide)⟩

end kmlib

/-! ## The word count -/

namespace kmlib

/-- For a size of `size_t`, the computed word count is `ceil(size / 64)` exactly when the
size is at most `2 ^ 64 - 64`. -/
theorem word_count_eq_ceil_iff {size : Nat} (h : size < 2 ^ 64) :
    word_count size = (size + (kBitsPerWord - 1)) / kBitsPerWord ↔ size + 64 ≤ 2 ^ 64 := by
  constructor
  · intro he
    by_contra hc
    have h0 := word_count_wrapped (Nat.lt_of_not_le hc) h
    rw [h0] at he
    simp only [kBitsPerWord, kBitsPerByte] at he
    norm_num at h hc
    omega
  · exact word_count_eq_ceil

/-- C18 (failing input): for `size = 2 ^ 64 - 1` the wrapping computation gives 0 words
where `ceil(size / 64)` is `2 ^ 58`, and the constructor, `reset` and the body of `FromPtr`
each leave an array of 0 words. -/
theorem word_count_largest_size :
    word_count (2 ^ 64 - 1) = 0 ∧
      (2 ^ 64 - 1 + (kBitsPerWord - 1)) / kBitsPerWord = 2 ^ 58 ∧
      (AtomicBitVector.ctor (2 ^ 64 - 1) none).map (fun v => v.data_array_.length) = some 0 ∧
      ((AtomicBitVector.mk 128 [0, 0x40]).reset (2 ^ 64 - 1)).data_array_.length = 0 ∧
      ((AtomicBitVector.mk 128 [0, 0x40]).FromPtr_body (2 ^ 64 - 1) []).map
        (fun v => v.data_array_.length) = some 0 := by
  decide

end kmlib

/-! ## `try_lock` against an environment that changes the word -/

namespace kmlib

theorem try_lock_env_ret (off : Nat) (b : Bool) (env : List (Nat × Bool)) :
    try_lock_env off (LockPc.ret b) env = some (b, []) := by
  cases env <;> rfl

theorem try_lock_env_entry_cons (off word : Nat) (sp : Bool) (rest : List (Nat × Bool)) :
    try_lock_env off LockPc.entry ((word, sp) :: rest) =
      (try_lock_env off (LockPc.loop word) rest).map fun q =>
        (q.1, { pc := LockPc.entry, word := word,
                step := { pc := LockPc.loop word, word := word, access := Access.load } }
              :: q.2) := by
  rw [try_lock_env]
  simp only [try_lock_step, load]
  cases try_lock_env off (LockPc.loop word) rest <;> rfl

theorem try_lock_env_loop_cons (off old word : Nat) (sp : Bool) (rest : List (Nat × Bool)) :
    try_lock_env off (LockPc.loop old) ((word, sp) :: rest) =
      (try_lock_env off (try_lock_step off sp (LockPc.loop old) word).pc rest).map fun q =>
        (q.1, { pc := LockPc.loop old, word := word,
                step := try_lock_step off sp (LockPc.loop old) word } :: q.2) := by
  rw [try_lock_env]
  cases try_lock_env off (try_lock_step off sp (LockPc.loop old) word).pc rest <;> rfl

/-- What the steps of a call that returned `b` from control point `pc` look like. -/
theorem try_lock_env_spec (off : Nat) (env : List (Nat × Bool)) :
    ∀ (pc : LockPc) (b : Bool) (evs : List LockEvent),
      try_lock_env off pc env = some (b, evs) →
      (∀ e ∈ evs, e.step.access = Access.cas false →
        e.step.pc = LockPc.loop e.word ∧ e.step.word = e.word) ∧
      (b = true → pc = LockPc.ret true ∨
        ∃ init e, evs = init ++ [e] ∧ (∀ e1 ∈ init, e1.step.word = e1.word) ∧
          e.pc = LockPc.loop e.word ∧ bit_of e.word off = false ∧
          e.step.access = Access.cas true ∧ e.step.word = fetch_or e.word (bit_mask off)) ∧
      (b = false → (∀ e ∈ evs, e.step.word = e.word) ∧
        (pc = LockPc.ret false ∨
          ∃ init e old, evs = init ++ [e] ∧ e.pc = LockPc.loop old ∧
            bit_of old off = true ∧ e.step.access = Access.exit)) := by
  induction env with
  | nil =>
    intro pc b evs h
    cases pc with
    | entry => cases h
    | loop old => cases h
    | ret b0 =>
      rw [try_lock_env_ret] at h
      cases h
      refine ⟨fun e he => absurd he (List.not_mem_nil e), fun hb => Or.inl (hb ▸ rfl),
        fun hb => ⟨fun e he => absurd he (List.not_mem_nil e), Or.inl (hb ▸ rfl)⟩⟩
  | cons p rest ih =>
    obtain ⟨word, sp⟩ := p
    -- one more step in front of a call that has made at least one step
    have extend : ∀ (e0 : LockEvent) (pc1 : LockPc) (b : Bool) (evs1 : List LockEvent)
        (pc : LockPc), try_lock_env off pc1 rest = some (b, evs1) →
        (∀ c, pc1 ≠ LockPc.ret c) → e0.step.word = e0.word →
        (e0.step.access = Access.cas false → e0.step.pc = LockPc.loop e0.word) →
        (∀ e ∈ e0 :: evs1, e.step.access = Access.cas false →
          e.step.pc = LockPc.loop e.word ∧ e.step.word = e.word) ∧
        (b = true → pc = LockPc.ret true ∨
          ∃ init e, e0 :: evs1 = init ++ [e] ∧ (∀ e1 ∈ init, e1.step.word = e1.word) ∧
            e.pc = LockPc.loop e.word ∧ bit_of e.word off = false ∧
            e.step.access = Access.cas true ∧
            e.step.word = fetch_or e.word (bit_mask off)) ∧
        (b = false → (∀ e ∈ e0 :: evs1, e.step.word = e.word) ∧
          (pc = LockPc.ret false ∨
            ∃ init e old, e0 :: evs1 = init ++ [e] ∧ e.pc = LockPc.loop old ∧
              bit_of old off = true ∧ e.step.access = Access.exit)) := by
      intro e0 pc1 b evs1 pc h1 hnr hw hcas
      obtain ⟨hA, hT, hF⟩ := ih pc1 b evs1 h1
      refine ⟨fun e he hacc => ?_, fun hb => Or.inr ?_, fun hb => ⟨fun e he => ?_, Or.inr ?_⟩⟩
      · rcases List.mem_cons.mp he with h2 | h2
        · rw [h2]; exact ⟨hcas (h2 ▸ hacc), hw⟩
        · exact hA e h2 hacc
      · rcases hT hb with h2 | ⟨init, e, h3, h4, h5⟩
        · exact absurd h2 (hnr true)
        · refine ⟨e0 :: init, e, by rw [h3]; rfl, fun e1 he1 => ?_, h5⟩
          rcases List.mem_cons.mp he1 with h6 | h6
          · rw [h6]; exact hw
          · exact h4 e1 h6
      · rcases List.mem_cons.mp he with h2 | h2
        · rw [h2]; exact hw
        · exact (hF hb).1 e h2
      · rcases (hF hb).2 with h2 | ⟨init, e, old, h3, h4⟩
        · exact absurd h2 (hnr false)
        · exact ⟨e0 :: init, e, old, by rw [h3]; rfl, h4⟩
    intro pc b evs h
    cases pc with
    | ret b0 =>
      rw [try_lock_env_ret] at h
      cases h
      refine ⟨fun e he => absurd he (List.not_mem_nil e), fun hb => Or.inl (hb ▸ rfl),
        fun hb => ⟨fun e he => absurd he (List.not_mem_nil e), Or.inl (hb ▸ rfl)⟩⟩
    | entry =>
      rw [try_lock_env_entry_cons] at h
      cases h1 : try_lock_env off (LockPc.loop word) rest with
      | none => rw [h1] at h; cases h
      | some q =>
        rw [h1] at h
        cases h
        exact extend _ (LockPc.loop word) q.1 q.2 LockPc.entry h1
          (fun c hc => by cases hc) rfl (fun hc => by cases hc)
    | loop old =>
      rw [try_lock_env_loop_cons] at h
      cases h1 : try_lock_env off (try_lock_step off sp (LockPc.loop old) word).pc rest with
      | none => rw [h1] at h; cases h
      | some q =>
        rw [h1] at h
        cases h
        by_cases hb : bit_of old off = true
        · -- the while test fails
          rw [step_loop_set hb] at h1 ⊢
          rw [try_lock_env_ret] at h1
          cases h1
          refine ⟨fun e he hacc => ?_, fun hc => Bool.noConfusion hc,
            fun _ => ⟨fun e he => ?_, Or.inr ⟨[], _, old, rfl, rfl, hb, rfl⟩⟩⟩
          · rw [List.mem_singleton.mp he] at hacc
            cases hacc
          · rw [List.mem_singleton.mp he]
        · have hb0 : bit_of old off = false := by
            cases hbo : bit_of old off
            · rfl
            · exact absurd hbo hb
          by_cases hwin : word = old ∧ sp = false
          · -- the exchange succeeds
            obtain ⟨hwo, hsp⟩ := hwin
            subst hwo
            subst hsp
            rw [step_loop_win hb0] at h1 ⊢
            rw [try_lock_env_ret] at h1
            cases h1
            refine ⟨fun e he hacc => ?_, fun _ => Or.inr
              ⟨[], _, rfl, fun e1 he1 => absurd he1 (List.not_mem_nil e1), rfl, hb0, rfl, rfl⟩,
              fun hc => Bool.noConfusion hc⟩
            rw [List.mem_singleton.mp he] at hacc
            cases hacc
          · -- the exchange fails and the snapshot is replaced
            rw [step_loop_fail hb0 hwin] at h1 ⊢
            exact extend _ (LockPc.loop word) q.1 q.2 (LockPc.loop old) h1
              (fun c hc => by cases hc) rfl (fun _ => rfl)

end kmlib

namespace kmlib

/-- C20: let a call of `try_lock(i)` run against any environment, that is any sequence of
contents of the word found by its successive steps (and any spurious failures), and let it
return `b` after the steps `evs`.  Then every failed exchange left the word as found and
made the content found the new snapshot.  If `b` is `true`, the last step is a successful
exchange whose snapshot equals the content found and has bit `i` clear, it stores that
content with bit `i` set and every other bit as found, and no earlier step wrote.  If `b`
is `false`, no step wrote and the last step is the failed `while` test on a snapshot with
bit `i` set. -/
theorem try_lock_against_environment (i : Nat) (env : List (Nat × Bool)) (b : Bool)
    (evs : List LockEvent)
    (h : try_lock_env (i % kBitsPerWord) LockPc.entry env = some (b, evs)) :
    (∀ e ∈ evs, e.step.access = Access.cas false →
      e.step.pc = LockPc.loop e.word ∧ e.step.word = e.word) ∧
    (b = true →
      ∃ init e, evs = init ++ [e] ∧ (∀ e1 ∈ init, e1.step.word = e1.word) ∧
        e.pc = LockPc.loop e.word ∧ bit_of e.word (i % kBitsPerWord) = false ∧
        e.step.access = Access.cas true ∧
        e.step.word = fetch_or e.word (bit_mask (i % kBitsPerWord)) ∧
        bit_of e.step.word (i % kBitsPerWord) = true ∧
        ∀ j, j ≠ i % kBitsPerWord → bit_of e.step.word j = bit_of e.word j) ∧
    (b = false →
      (∀ e ∈ evs, e.step.word = e.word) ∧
      ∃ init e old, evs = init ++ [e] ∧ e.pc = LockPc.loop old ∧
        bit_of old (i % kBitsPerWord) = true ∧ e.step.access = Access.exit) := by
  have hoff := mod_kBitsPerWord_lt i
  obtain ⟨hA, hT, hF⟩ := try_lock_env_spec (i % kBitsPerWord) env LockPc.entry b evs h
  refine ⟨hA, fun hb => ?_, fun hb => ⟨(hF hb).1, ?_⟩⟩
  · rcases hT hb with h1 | ⟨init, e, h2, h3, h4, h5, h6, h7⟩
    · cases h1
    · refine ⟨init, e, h2, h3, h4, h5, h6, h7, ?_, fun j hj => ?_⟩
      · rw [h7]
        exact bit_of_fetch_or_self hoff e.word
      · rw [h7, bit_of_fetch_or_mask e.word hoff j]
        simp [Ne.symm hj]
  · rcases (hF hb).2 with h1 | h1
    · cases h1
    · exact h1

/-- Witness of C20: the contended call `contended_steps` on bit 70, which returns `true`. -/
theorem try_lock_against_environment_witness :
    try_lock_env (70 % kBitsPerWord) LockPc.entry [(0x80, false), (0x81, false), (0x81, false)]
        = some (true, contended_steps) ∧
    (∀ e ∈ contended_steps, e.step.access = Access.cas false →
      e.step.pc = LockPc.loop e.word ∧ e.step.word = e.word) ∧
    (true = true →
      ∃ init e, contended_steps = init ++ [e] ∧ (∀ e1 ∈ init, e1.step.word = e1.word) ∧
        e.pc = LockPc.loop e.word ∧ bit_of e.word (70 % kBitsPerWord) = false ∧
        e.step.access = Access.cas true ∧
        e.step.word = fetch_or e.word (bit_mask (70 % kBitsPerWord)) ∧
        bit_of e.step.word (70 % kBitsPerWord) = true ∧
        ∀ j, j ≠ 70 % kBitsPerWord → bit_of e.step.word j = bit_of e.word j) ∧
    (true = false →
      (∀ e ∈ contended_steps, e.step.word = e.word) ∧
      ∃ init e old, contended_steps = init ++ [e] ∧ e.pc = LockPc.loop old ∧
        bit_of old (70 % kBitsPerWord) = true ∧ e.step.access = Access.exit) :=
  ⟨by decide,
    try_lock_against_environment 70 [(0x80, false), (0x81, false), (0x81, false)] true
      contended_steps (by decide)⟩

end kmlib
